import Mathlib

/-!
Verification of the natural-language specification of the Fedivertex
`fediverse_graphs` loader (file `fediverse_graphs/main.py`) against a
shallow embedding of its code in Lean.

The embedding mirrors the Python module: the static catalog of valid
(software, graph type) pairs, input validation, date resolution over the
record-set descriptors of a dataset handle, graph construction from
interaction records, and metadata-table construction.  Machine-level
Python behaviours that matter to the claims are modelled explicitly:
truthiness of optional arguments, string formatting of `None`, list
indexing with negative indices, substring tests, and `str.split`.
-/

namespace FediverseGraphs

/-- Errors raised by the loader: `valueError` models Python `ValueError`,
`notImplemented` models the graph-library error raised when connected
components are requested on a directed graph, and `upstream` models a
failure propagated from the external record source (for example an
unknown virtual file path). -/
inductive PyError where
  | valueError (msg : String)
  | notImplemented (msg : String)
  | upstream (msg : String)
deriving Repr, DecidableEq

instance instDecEqExcept {ε α : Type} [DecidableEq ε] [DecidableEq α] :
    DecidableEq (Except ε α) := fun a b =>
  match a, b with
  | .error x, .error y => decidable_of_iff (x = y) (by simp)
  | .error _, .ok _ => .isFalse (by simp)
  | .ok _, .error _ => .isFalse (by simp)
  | .ok x, .ok y => decidable_of_iff (x = y) (by simp)

/-- The single-quote character, used by the Python `repr` of strings. -/
def squoteChar : Char := Char.ofNat 39

/-- Python `repr` of a string (single-quoted, as produced for the catalog
key names, none of which needs escaping). -/
def pyStrRepr (s : String) : String := squoteChar.toString ++ s ++ squoteChar.toString

/-- Python `str` of a list of strings, as interpolated into the error
messages of `check_input`. -/
def pyStrListRepr (l : List String) : String :=
  "[" ++ String.intercalate ", " (l.map pyStrRepr) ++ "]"

/-- The static catalog `VALID_GRAPH_TYPES` of the loader, as an ordered
association list (Python dictionaries preserve insertion order). -/
def VALID_GRAPH_TYPES : List (String × List String) :=
  [("bookwyrm", ["federation"]),
   ("friendica", ["federation"]),
   ("lemmy", ["federation", "cross_instance", "intra_instance"]),
   ("mastodon", ["federation", "active_user"]),
   ("misskey", ["federation", "active_user"]),
   ("peertube", ["federation"]),
   ("pleroma", ["federation", "active_user"])]

/-- The constant `UNDIRECTED_GRAPHS` of the loader. -/
def UNDIRECTED_GRAPHS : List String := ["federation"]

/-- The key set of the catalog, in insertion order (`dict.keys()`). -/
def catalogKeys : List String := VALID_GRAPH_TYPES.map Prod.fst

/-- First-match lookup in an ordered association list, the semantics of a
Python dictionary access for a dictionary built by literal insertion. -/
def assocLookup : List (String × List String) → String → Option (List String)
  | [], _ => none
  | (k, v) :: rest, s => if s = k then some v else assocLookup rest s

/-- Dictionary lookup `VALID_GRAPH_TYPES[software]` (as an `Option`). -/
def lookupTypes (software : String) : Option (List String) :=
  assocLookup VALID_GRAPH_TYPES software

/-- The message of the invalid-software `ValueError`. -/
def invalidSoftwareMsg : String :=
  "Invalid software! Valid software: " ++ pyStrListRepr catalogKeys

/-- The message of the invalid-graph-type `ValueError`. -/
def invalidTypeMsg (software graph_type : String) (valid : List String) : String :=
  graph_type ++ " is not a valid graph type for " ++ software ++
    ". Valid types: " ++ pyStrListRepr valid

/-- Embedding of `GraphLoader._check_input`. -/
def check_input (software graph_type : String) : Except PyError Unit :=
  match lookupTypes software with
  | none => .error (.valueError invalidSoftwareMsg)
  | some types =>
    if graph_type ∈ types then .ok ()
    else .error (.valueError (invalidTypeMsg software graph_type types))

/-- Embedding of `GraphLoader.list_all_software`. -/
def list_all_software : List String := catalogKeys

/-- Embedding of `GraphLoader.list_graph_types`. -/
def list_graph_types (software : String) : Except PyError (List String) :=
  match lookupTypes software with
  | none => .error (.valueError invalidSoftwareMsg)
  | some types => .ok types

/-! ### String utilities mirroring Python string operations -/

/-- `str.split(sep)` for a one-character separator, at the character-list
level.  Python semantics: splitting the empty string yields `[""]`, and
consecutive separators yield empty segments. -/
def splitCh (sep : Char) : List Char → List (List Char)
  | [] => [[]]
  | c :: rest =>
    match splitCh sep rest with
    | [] => [[c]]
    | h :: t => if c = sep then [] :: h :: t else (c :: h) :: t

/-- `s.split("/")` as a list of strings. -/
def pySplit (s : String) : List String := (splitCh '/' s.data).map (fun l => String.mk l)

/-- `s.split("/")[-1]`: the final slash-separated component of a string
(`pySplit` never returns an empty list, so the default is never used). -/
def lastComponent (s : String) : String := (pySplit s).getLastD s

/-- Boolean test that a character list starts with a given pattern. -/
def startsWithPat : List Char → List Char → Bool
  | _, [] => true
  | [], _ :: _ => false
  | a :: restA, b :: restB => a == b && startsWithPat restA restB

/-- Boolean substring test on character lists (the Python `in` operator
on strings). -/
def containsPat : List Char → List Char → Bool
  | [], p => p.isEmpty
  | l@(_ :: rest), p => startsWithPat l p || containsPat rest p

/-- The Python expression `pat in s` for strings. -/
def strContains (s pat : String) : Bool := containsPat s.data pat.data

/-- Lexicographic comparison of character lists by code point, the
ordering Python uses to compare and sort strings. -/
def strLeB : List Char → List Char → Bool
  | [], _ => true
  | _ :: _, [] => false
  | a :: s, b :: t =>
    decide (a.toNat < b.toNat) || (decide (a.toNat = b.toNat) && strLeB s t)

/-- Python string comparison `a <= b`. -/
def pyStrLe (a b : String) : Bool := strLeB a.data b.data

/-- Python `list.sort()` on strings: ascending lexicographic order. -/
def sortStrings (l : List String) : List String :=
  List.insertionSort (fun a b => pyStrLe a b = true) l

/-! ### The dataset environment -/

/-- One interaction record: the decoded `Source` and `Target` fields and
the numeric `Weight` field.  The loader performs no arithmetic on
weights, so they are modelled as integers. -/
structure InteractionRecord where
  source : String
  target : String
  weight : Int
deriving Repr, DecidableEq

/-- The external dataset handle, as observed by the loader: the
identifiers (`uuid`) of its record-set descriptors, and the records
served for a virtual file path (`none` when the external source fails
for that path, for example because no such record set exists). -/
structure Env where
  recordSets : List String
  interactions : String → Option (List InteractionRecord)
  instanceRecords : String → Option (List (List (String × Int)))

/-! ### Date resolution -/

/-- The date-collection loop of `list_available_dates`: for each
record-set identifier, skip it unless `"interactions.csv"` occurs in it
as a substring; then split on `"/"` and unpack into exactly four
segments (a Python unpacking error is raised otherwise), and collect the
date segment when software and graph type match. -/
def collectDates (software graph_type : String) : List String → Except PyError (List String)
  | [] => .ok []
  | u :: rest =>
    if strContains u "interactions.csv" then
      match pySplit u with
      | [s1, s2, s3, _s4] =>
        (collectDates software graph_type rest).map
          (fun ds => if s1 = software ∧ s2 = graph_type then s3 :: ds else ds)
      | _ => .error (.valueError "cannot unpack record set identifier into 4 values")
    else collectDates software graph_type rest

/-- Embedding of `GraphLoader.list_available_dates`: validate the input,
collect the matching dates and sort them ascending (`list.sort()`). -/
def list_available_dates (env : Env) (software graph_type : String) :
    Except PyError (List String) :=
  match check_input software graph_type with
  | .error e => .error e
  | .ok _ =>
    (collectDates software graph_type env.recordSets).map sortStrings

/-- Python list indexing `l[i]` for an integer index: non-negative
indices are positional, negative indices are end-relative, and anything
out of range yields `none` (an `IndexError` in Python). -/
def pyIndex (l : List String) (i : Int) : Option String :=
  if 0 ≤ i then l[i.toNat]?
  else if i.natAbs ≤ l.length then l[l.length - i.natAbs]?
  else none

/-- The message of the no-graph-available `ValueError`. -/
def noGraphMsg (software graph_type : String) : String :=
  "No graph available for " ++ software ++ "+" ++ graph_type

/-- Embedding of `GraphLoader._fetch_date_index`. -/
def fetch_date_index (env : Env) (software graph_type : String) (index : Int) :
    Except PyError String :=
  match list_available_dates env software graph_type with
  | .error e => .error e
  | .ok dates =>
    if dates.length = 0 then .error (.valueError (noGraphMsg software graph_type))
    else
      match pyIndex dates index with
      | some d => .ok d
      | none => .error (.valueError ("Invalid index: " ++ toString index))

/-- Embedding of `GraphLoader._fetch_latest_date` (`dates[-1]`). -/
def fetch_latest_date (env : Env) (software graph_type : String) :
    Except PyError String :=
  match list_available_dates env software graph_type with
  | .error e => .error e
  | .ok dates =>
    if dates.length = 0 then .error (.valueError (noGraphMsg software graph_type))
    else .ok (dates.getLastD "")

/-! ### The graph container (the NetworkX `Graph`/`DiGraph` surface used
by the loader) -/

/-- The graph container: a directedness flag, the node list in insertion
order, and the edge list as an association list from an endpoint pair to
the `weight` attribute.  For an undirected graph an edge is keyed by an
unordered pair (stored with the orientation of its first insertion). -/
structure Graph where
  directed : Bool
  nodes : List String
  edges : List ((String × String) × Int)
deriving Repr, DecidableEq

/-- Append a node if it is not present (NetworkX node insertion keeps
the first occurrence and the insertion order). -/
def pushUnique (l : List String) (v : String) : List String :=
  if v ∈ l then l else l ++ [v]

/-- Whether a stored edge key `k1` denotes the same edge as the queried
key `k2`: equal for a directed graph, equal up to swapping for an
undirected graph. -/
def keyMatches (directed : Bool) (k1 k2 : String × String) : Bool :=
  k1 == k2 || (!directed && k1 == (k2.2, k2.1))

/-- `graph.add_edge(u, v, weight=w)`: both endpoints become nodes, and
the edge keyed by `(u, v)` (up to direction) is inserted, or its weight
is overwritten if it already exists. -/
def Graph.addEdge (g : Graph) (u v : String) (w : Int) : Graph :=
  { directed := g.directed
    nodes := pushUnique (pushUnique g.nodes u) v
    edges :=
      if g.edges.any (fun e => keyMatches g.directed e.1 (u, v)) then
        g.edges.map (fun e => if keyMatches g.directed e.1 (u, v) then (e.1, w) else e)
      else g.edges ++ [((u, v), w)] }

/-- The `weight` attribute of the edge between `u` and `v`, if present. -/
def Graph.weightOf (g : Graph) (u v : String) : Option Int :=
  (g.edges.find? (fun e => keyMatches g.directed e.1 (u, v))).map Prod.snd

/-- The edge-insertion loop of `get_graph` over the streamed records. -/
def buildGraph (directed : Bool) (records : List InteractionRecord) : Graph :=
  records.foldl (fun g r => g.addEdge r.source r.target r.weight)
    { directed := directed, nodes := [], edges := [] }

/-! ### Connected components (NetworkX `connected_components`, `max` with
`key=len`, and `subgraph`) -/

/-- Undirected adjacency: an edge joins `u` and `v` in either stored
orientation. -/
def adjB (g : Graph) (u v : String) : Bool :=
  g.edges.any (fun e => e.1 == (u, v) || e.1 == (v, u))

/-- One step of undirected closure: the nodes that are in `s` or
adjacent to a member of `s`, listed in node order. -/
def expandComp (g : Graph) (s : List String) : List String :=
  g.nodes.filter (fun u => s.contains u || s.any (fun w => adjB g w u))

/-- The set of nodes connected to `v` (the component of `v`), computed
by iterating one-step closure as many times as there are nodes. -/
def Graph.reach (g : Graph) (v : String) : List String :=
  Nat.iterate (expandComp g) g.nodes.length [v]

/-- The component enumeration loop: scan nodes in insertion order and
yield the component of each node not already seen. -/
def componentsAux (g : Graph) : List String → List String → List (List String)
  | [], _ => []
  | v :: rest, seen =>
    if seen.contains v then componentsAux g rest seen
    else g.reach v :: componentsAux g rest (seen ++ g.reach v)

/-- `nx.connected_components`, as the list of components in first-node
order. -/
def Graph.connectedComponents (g : Graph) : List (List String) :=
  componentsAux g g.nodes []

/-- Python `max(iterable, key=len)`: the first element of maximal
length; `none` on an empty iterable (Python raises `ValueError`). -/
def maxByLen : List (List String) → Option (List String)
  | [] => none
  | c :: rest => some (rest.foldl (fun best x => if best.length < x.length then x else best) c)

/-- `graph.subgraph(s)`: the induced subgraph on the node set `s`. -/
def Graph.subgraphOn (g : Graph) (s : List String) : Graph :=
  { directed := g.directed
    nodes := g.nodes.filter (fun v => s.contains v)
    edges := g.edges.filter (fun e => s.contains e.1.1 && s.contains e.1.2) }

/-! ### `get_graph` -/

/-- Python truthiness of an optional integer (`bool(None) = bool(0) =
False`). -/
def truthyInt : Option Int → Bool
  | none => false
  | some k => k != 0

/-- Python truthiness of an optional string (`bool(None) = bool("") =
False`). -/
def truthyStr : Option String → Bool
  | none => false
  | some s => s != ""

/-- Python f-string interpolation of an optional string: `None` is
formatted as the four-character string `"None"`. -/
def optStr : Option String → String
  | none => "None"
  | some s => s

/-- The virtual path `f"{software}/{graph_type}/{date}/interactions.csv"`. -/
def mkCsvPath (software graph_type : String) (d : Option String) : String :=
  software ++ "/" ++ graph_type ++ "/" ++ optStr d ++ "/interactions.csv"

/-- The message of the NetworkX error raised when connected components
are requested on a directed graph. -/
def notImplementedMsg : String := "not implemented for directed type"

/-- The message of the mutually-exclusive-selectors `ValueError`. -/
def bothMsg : String :=
  "You must provide either the date or the index of the graph, not both."

/-- The message of the `ValueError` raised by Python `max` on an empty
sequence. -/
def emptyMaxMsg : String := "max() arg is an empty sequence"

/-- The directedness flag chosen by `get_graph`: a directed container
unless the graph type is in `UNDIRECTED_GRAPHS`. -/
def dirFlag (graph_type : String) : Bool :=
  if graph_type ∈ UNDIRECTED_GRAPHS then false else true

/-- The tail of `get_graph` after date resolution: build the virtual
path, stream the records, build the graph (undirected exactly when the
graph type is in `UNDIRECTED_GRAPHS`), and optionally reduce to the
largest connected component. -/
def buildFromCsv (env : Env) (software graph_type : String) (d : Option String)
    (only_largest_component : Bool) : Except PyError Graph :=
  let csv := mkCsvPath software graph_type d
  match env.interactions csv with
  | none => .error (.upstream csv)
  | some records =>
    let g := buildGraph (dirFlag graph_type) records
    if only_largest_component then
      if g.directed then .error (.notImplemented notImplementedMsg)
      else
        match maxByLen g.connectedComponents with
        | none => .error (.valueError emptyMaxMsg)
        | some cc => .ok (g.subgraphOn cc)
    else .ok g

/-- Embedding of `GraphLoader.get_graph`.  The three date-resolution
branches mirror the Python control flow literally, including its
truthiness tests: `if index and date: raise`, `if index: date =
fetch_date_index(index)`, `if index is None and date is None: date =
fetch_latest_date()`. -/
def get_graph (env : Env) (software graph_type : String) (index : Option Int)
    (date : Option String) (only_largest_component : Bool) : Except PyError Graph :=
  match check_input software graph_type with
  | .error e => .error e
  | .ok _ =>
    if truthyInt index && truthyStr date then .error (.valueError bothMsg)
    else
      match
        (if truthyInt index then
          (fetch_date_index env software graph_type ((index.getD 0))).map some
         else if index.isNone && date.isNone then
          (fetch_latest_date env software graph_type).map some
         else .ok date : Except PyError (Option String))
      with
      | .error e => .error e
      | .ok d => buildFromCsv env software graph_type d only_largest_component

/-! ### `get_graph_metadata` -/

/-- The tabular container: column labels and one row per record. -/
structure DataFrame where
  columns : List String
  rows : List (List (String × Int))
deriving Repr, DecidableEq

/-- The column labels of the records table: field names in first
appearance order. -/
def dedupFirst (l : List String) : List String := l.foldl pushUnique []

/-- The field names appearing across a record list, in order. -/
def fieldNames (records : List (List (String × Int))) : List String :=
  dedupFirst ((records.map (fun r => r.map Prod.fst)).flatten)

/-- Embedding of `GraphLoader.get_graph_metadata`: validate, resolve the
`"latest"` sentinel, stream the instance records into a table, and
rename every column to its final slash-separated component. -/
def get_graph_metadata (env : Env) (software graph_type : String) (date : String) :
    Except PyError DataFrame :=
  match check_input software graph_type with
  | .error e => .error e
  | .ok _ =>
    match
      (if date = "latest" then fetch_latest_date env software graph_type
       else .ok date : Except PyError String)
    with
    | .error e => .error e
    | .ok d =>
      let csv := software ++ "/" ++ graph_type ++ "/" ++ d ++ "/instances.csv"
      match env.instanceRecords csv with
      | none => .error (.upstream csv)
      | some records =>
        .ok { columns := (fieldNames records).map lastComponent, rows := records }

/-! ### Auxiliary definitions used by the verification -/

/-- Undirected connectivity between nodes of a graph: the reflexive
closure of adjacency along edges, restricted to nodes of the graph. -/
inductive UReach (g : Graph) : String → String → Prop where
  | refl (v : String) (hv : v ∈ g.nodes) : UReach g v v
  | step {u v w : String} (h1 : UReach g u v) (h2 : adjB g v w = true)
      (h3 : w ∈ g.nodes) : UReach g u w

/-- The distinct edge keys of a record sequence, in first-appearance
order, identified up to the container key semantics (ordered pairs for a
directed container, unordered for an undirected one).  This follows the
claim that the construction keeps exactly one edge per distinct pair. -/
def distinctKeysPy (dir : Bool) (records : List InteractionRecord) : List (String × String) :=
  records.foldl
    (fun ks r =>
      if ks.any (fun k => keyMatches dir k (r.source, r.target)) then ks
      else ks ++ [(r.source, r.target)])
    []

/-- Modelled from the claim wording for `list_available_dates`: the date
segments of the descriptors whose filename segment is
`interactions.csv` and whose software and graph-type segments match. -/
def specSelectedDates (recordSets : List String) (software graph_type : String) :
    List String :=
  recordSets.filterMap (fun u =>
    match pySplit u with
    | [s1, s2, s3, s4] =>
      if s4 = "interactions.csv" ∧ s1 = software ∧ s2 = graph_type then some s3 else none
    | _ => none)

/-- Well-formedness of a record-set identifier, following the data-model
invariant of the specification: exactly four slash-delimited segments,
the filename segment one of the two known file names, and the date
segment a zero-padded numeric string (all digits). -/
def WellFormedUuid (u : String) : Prop :=
  ∃ s1 s2 s3 s4 : List Char,
    u.data = s1 ++ '/' :: (s2 ++ '/' :: (s3 ++ '/' :: s4)) ∧
    '/' ∉ s1 ∧ '/' ∉ s2 ∧ '/' ∉ s3 ∧
    (s4 = "interactions.csv".data ∨ s4 = "instances.csv".data) ∧
    (∀ c ∈ s3, c.isDigit)

/-- A concrete dataset environment: a bookwyrm federation graph on two
dates, with the interaction records of the concrete examples of the
specification. -/
def envA : Env :=
  { recordSets := ["bookwyrm/federation/20250202/interactions.csv",
                   "bookwyrm/federation/20250101/interactions.csv",
                   "bookwyrm/federation/20250101/instances.csv"]
    interactions := fun p =>
      if p = "bookwyrm/federation/20250101/interactions.csv" then
        some [⟨"A", "B", 1⟩, ⟨"B", "C", 2⟩, ⟨"A", "B", 5⟩]
      else if p = "bookwyrm/federation/20250202/interactions.csv" then
        some [⟨"A", "B", 3⟩]
      else none
    instanceRecords := fun _ => none }

/-- A dataset environment with no record sets at all. -/
def envEmpty : Env :=
  { recordSets := [], interactions := fun _ => none, instanceRecords := fun _ => none }

/-- A dataset environment serving one instance-metadata record set. -/
def envM : Env :=
  { recordSets := ["bookwyrm/federation/20250203/instances.csv"]
    interactions := fun _ => none
    instanceRecords := fun p =>
      if p = "bookwyrm/federation/20250203/instances.csv" then
        some [[("bookwyrm/federation/20250203/instances.csv/UserCount", 42),
               ("bookwyrm/federation/20250203/instances.csv/Source", 7)]]
      else none }

/-- A dataset environment whose record-set descriptors arrive in
non-sorted order, with descriptors for other software and for the
instances file mixed in. -/
def envB : Env :=
  { recordSets := ["bookwyrm/federation/20250303/interactions.csv",
                   "bookwyrm/federation/20250101/interactions.csv",
                   "lemmy/federation/20250202/interactions.csv",
                   "bookwyrm/federation/20250101/instances.csv",
                   "bookwyrm/active_user/20250104/interactions.csv"]
    interactions := fun _ => none
    instanceRecords := fun _ => none }

/-- A dataset environment serving one directed (cross-instance) graph. -/
def envC : Env :=
  { recordSets := ["lemmy/cross_instance/20250101/interactions.csv"]
    interactions := fun p =>
      if p = "lemmy/cross_instance/20250101/interactions.csv" then
        some [⟨"A", "B", 1⟩]
      else none
    instanceRecords := fun _ => none }

/-- Interaction records forming two disconnected undirected components,
of sizes 5 (A-B-C-D-E) and 3 (F-G-H). -/
def recordsD : List InteractionRecord :=
  [⟨"A", "B", 1⟩, ⟨"B", "C", 1⟩, ⟨"C", "D", 1⟩, ⟨"D", "E", 1⟩,
   ⟨"F", "G", 1⟩, ⟨"G", "H", 1⟩]

/-- A dataset environment serving the two-component federation graph. -/
def envD : Env :=
  { recordSets := ["bookwyrm/federation/20250101/interactions.csv"]
    interactions := fun p =>
      if p = "bookwyrm/federation/20250101/interactions.csv" then some recordsD
      else none
    instanceRecords := fun _ => none }

/-! ## Helper lemmas -/

theorem assocLookup_eq_none_iff (l : List (String × List String)) (s : String) :
    assocLookup l s = none ↔ s ∉ l.map Prod.fst := by
  induction l with
  | nil => simp [assocLookup]
  | cons p rest ih =>
    obtain ⟨k, v⟩ := p
    by_cases h : s = k
    · subst h; simp [assocLookup]
    · simp [assocLookup, h, ih]

theorem find?_ext {α : Type} (p q : α → Bool) (l : List α) (h : ∀ a, p a = q a) :
    l.find? p = l.find? q := by
  induction l with
  | nil => rfl
  | cons a t ih =>
    simp only [List.find?]
    rw [h a]
    cases q a <;> simp [ih]

theorem addEdge_directed (g : Graph) (u v : String) (w : Int) :
    (g.addEdge u v w).directed = g.directed := rfl

theorem foldl_addEdge_directed (records : List InteractionRecord) (g : Graph) :
    (records.foldl (fun g r => g.addEdge r.source r.target r.weight) g).directed =
      g.directed := by
  induction records generalizing g with
  | nil => rfl
  | cons r rs ih => simpa [List.foldl] using ih (g.addEdge r.source r.target r.weight)

theorem buildGraph_directed (dir : Bool) (records : List InteractionRecord) :
    (buildGraph dir records).directed = dir :=
  foldl_addEdge_directed records _

theorem buildFromCsv_directed (env : Env) (software graph_type : String)
    (d : Option String) (olc : Bool) (g : Graph)
    (h : buildFromCsv env software graph_type d olc = .ok g) :
    g.directed = dirFlag graph_type := by
  unfold buildFromCsv at h
  rcases hi : env.interactions (mkCsvPath software graph_type d) with _ | records
  · simp [hi] at h
  · simp only [hi] at h
    split at h
    · split at h
      · exact Except.noConfusion h
      · split at h
        · exact Except.noConfusion h
        · cases h
          simpa [Graph.subgraphOn] using buildGraph_directed (dirFlag graph_type) records
    · cases h
      exact buildGraph_directed (dirFlag graph_type) records

theorem get_graph_ok_buildFromCsv (env : Env) (software graph_type : String)
    (index : Option Int) (date : Option String) (olc : Bool) (g : Graph)
    (h : get_graph env software graph_type index date olc = .ok g) :
    ∃ d, buildFromCsv env software graph_type d olc = .ok g := by
  unfold get_graph at h
  split at h
  · exact Except.noConfusion h
  · split at h
    · exact Except.noConfusion h
    · split at h
      · exact Except.noConfusion h
      · exact ⟨_, h⟩

theorem splitCh_no_sep (sep : Char) (l : List Char) (h : sep ∉ l) :
    splitCh sep l = [l] := by
  induction l with
  | nil => rfl
  | cons c rest ih =>
    have hc : ¬ c = sep := fun he => h (he ▸ List.mem_cons_self c rest)
    have hr : sep ∉ rest := fun hm => h (List.mem_cons_of_mem c hm)
    simp [splitCh, ih hr, hc]

theorem lastComponent_no_slash (s : String) (h : '/' ∉ s.data) :
    lastComponent s = s := by
  unfold lastComponent pySplit
  rw [splitCh_no_sep _ _ h]
  rfl

/-! ## Claim C8 -/

/-- C8: for software names outside the catalog, every public operation
taking a software name fails with the invalid-argument error whose
message enumerates exactly the catalog key set; for known software and a
graph type outside its catalog entry, validation fails naming exactly
that software valid graph types; the failure is identical for every
dataset environment and every other argument (validation is
front-loaded). -/
theorem C8_validation (software graph_type : String) (env : Env) (index : Option Int)
    (date : Option String) (olc : Bool) (mdate : String) :
    (software ∉ catalogKeys →
      list_graph_types software = .error (.valueError invalidSoftwareMsg) ∧
      list_available_dates env software graph_type = .error (.valueError invalidSoftwareMsg) ∧
      get_graph env software graph_type index date olc =
        .error (.valueError invalidSoftwareMsg) ∧
      get_graph_metadata env software graph_type mdate =
        .error (.valueError invalidSoftwareMsg)) ∧
    (∀ types, lookupTypes software = some types → graph_type ∉ types →
      list_available_dates env software graph_type =
        .error (.valueError (invalidTypeMsg software graph_type types)) ∧
      get_graph env software graph_type index date olc =
        .error (.valueError (invalidTypeMsg software graph_type types)) ∧
      get_graph_metadata env software graph_type mdate =
        .error (.valueError (invalidTypeMsg software graph_type types))) ∧
    invalidSoftwareMsg = "Invalid software! Valid software: " ++ pyStrListRepr catalogKeys ∧
    catalogKeys = ["bookwyrm", "friendica", "lemmy", "mastodon", "misskey", "peertube",
      "pleroma"] := by
  refine ⟨fun hs => ?_, fun types ht hgt => ?_, rfl, by decide⟩
  · have h0 : lookupTypes software = none := (assocLookup_eq_none_iff _ _).mpr hs
    refine ⟨?_, ?_, ?_, ?_⟩ <;>
      simp [list_graph_types, list_available_dates, get_graph, get_graph_metadata,
        check_input, h0]
  · have hch : check_input software graph_type =
        .error (.valueError (invalidTypeMsg software graph_type types)) := by
      simp [check_input, ht, hgt]
    refine ⟨?_, ?_, ?_⟩ <;>
      simp [list_available_dates, get_graph, get_graph_metadata, hch]

theorem C8_validation_witness :
    ("plemora" ∉ catalogKeys ∧
      list_graph_types "plemora" = .error (.valueError invalidSoftwareMsg) ∧
      get_graph envEmpty "plemora" "federation" none none false =
        .error (.valueError invalidSoftwareMsg)) ∧
    (lookupTypes "bookwyrm" = some ["federation"] ∧
      "cross_instance" ∉ (["federation"] : List String) ∧
      get_graph envEmpty "bookwyrm" "cross_instance" none none false =
        .error (.valueError (invalidTypeMsg "bookwyrm" "cross_instance" ["federation"]))) := by
  have h := C8_validation "plemora" "federation" envEmpty none none false "latest"
  have h2 := C8_validation "bookwyrm" "cross_instance" envEmpty none none false "latest"
  exact ⟨⟨by decide, (h.1 (by decide)).1, (h.1 (by decide)).2.2.1⟩,
         ⟨by decide, by decide, (h2.2.1 ["federation"] (by decide) (by decide)).2.1⟩⟩

/-! ## Claim C9 -/

/-- C9: a graph returned by `get_graph` is undirected exactly when the
graph type is in the undirected set; the undirected set consists exactly
of `federation`; `active_user` graphs are directed; and in an undirected
result the edge between two nodes is the same in both orientations. -/
theorem C9_directedness (env : Env) (software graph_type : String) (index : Option Int)
    (date : Option String) (olc : Bool) (g : Graph)
    (h : get_graph env software graph_type index date olc = .ok g) :
    (g.directed = false ↔ graph_type ∈ UNDIRECTED_GRAPHS) ∧
    ("federation" ∈ UNDIRECTED_GRAPHS ∧
      ∀ t : String, t ∈ UNDIRECTED_GRAPHS → t = "federation") ∧
    (graph_type = "active_user" → g.directed = true) ∧
    (g.directed = false → ∀ u v : String, g.weightOf u v = g.weightOf v u) := by
  obtain ⟨d, hb⟩ := get_graph_ok_buildFromCsv env software graph_type index date olc g h
  have hd := buildFromCsv_directed env software graph_type d olc g hb
  refine ⟨?_, ⟨by decide, by intro t ht; simpa [UNDIRECTED_GRAPHS] using ht⟩, ?_, ?_⟩
  · rw [hd]
    by_cases hm : graph_type ∈ UNDIRECTED_GRAPHS <;> simp [dirFlag, hm]
  · intro ht
    subst ht
    rw [hd]
    decide
  · intro hdir u v
    unfold Graph.weightOf
    have hpt : ∀ e : (String × String) × Int,
        keyMatches g.directed e.1 (u, v) = keyMatches g.directed e.1 (v, u) := by
      intro e
      simp [keyMatches, hdir, Bool.or_comm]
    rw [find?_ext _ _ g.edges hpt]

theorem C9_directedness_witness :
    get_graph envA "bookwyrm" "federation" none (some "20250101") false =
      .ok { directed := false, nodes := ["A", "B", "C"],
            edges := [(("A", "B"), 5), (("B", "C"), 2)] } ∧
    (({ directed := false, nodes := ["A", "B", "C"],
        edges := [(("A", "B"), 5), (("B", "C"), 2)] : Graph }).directed = false ↔
      "federation" ∈ UNDIRECTED_GRAPHS) := by
  have h := C9_directedness envA "bookwyrm" "federation" none (some "20250101") false
    { directed := false, nodes := ["A", "B", "C"],
      edges := [(("A", "B"), 5), (("B", "C"), 2)] } (by decide)
  exact ⟨by decide, h.1⟩

/-! ## Claim C5 -/

theorem getElem?_in_range (l : List String) (n : Nat) (h : n < l.length) :
    l[n]? = some (l.getD n "") := by
  rw [List.getD_eq_getElem l "" h]
  simp [List.getElem?_eq_getElem h]

theorem getElem?_last_of_ne_nil (l : List String) (h : l ≠ []) :
    l[l.length - 1]? = some (l.getLastD "") := by
  rw [List.getLastD_eq_getLast? "" l, List.getLast?_eq_getElem?]
  have hl : 0 < l.length := List.length_pos.mpr h
  have hlt : l.length - 1 < l.length := by omega
  simp [List.getElem?_eq_getElem hlt]

/-- C5: `_fetch_date_index` fails with the no-graph-available error when
the sorted date sequence is empty; otherwise index `0` returns the
earliest date, `-1` the latest, any in-range index (non-negative
positional or negative end-relative) the corresponding element, and any
out-of-range index fails with the invalid-index error. -/
theorem C5_fetch_date_index (env : Env) (software graph_type : String)
    (dates : List String)
    (h : list_available_dates env software graph_type = .ok dates) :
    (dates = [] → ∀ i : Int, fetch_date_index env software graph_type i =
        .error (.valueError (noGraphMsg software graph_type))) ∧
    (dates ≠ [] →
      fetch_date_index env software graph_type 0 = .ok (dates.getD 0 "") ∧
      fetch_date_index env software graph_type (-1) = .ok (dates.getLastD "") ∧
      (∀ i : Int, 0 ≤ i → i.toNat < dates.length →
        fetch_date_index env software graph_type i = .ok (dates.getD i.toNat "")) ∧
      (∀ i : Int, i < 0 → i.natAbs ≤ dates.length →
        fetch_date_index env software graph_type i =
          .ok (dates.getD (dates.length - i.natAbs) "")) ∧
      (∀ i : Int, 0 ≤ i → dates.length ≤ i.toNat →
        fetch_date_index env software graph_type i =
          .error (.valueError ("Invalid index: " ++ toString i))) ∧
      (∀ i : Int, i < 0 → dates.length < i.natAbs →
        fetch_date_index env software graph_type i =
          .error (.valueError ("Invalid index: " ++ toString i)))) := by
  constructor
  · intro he i
    subst he
    simp [fetch_date_index, h]
  · intro hne
    have hlen : dates.length ≠ 0 := fun hz => hne (List.eq_nil_of_length_eq_zero hz)
    have hpos : 0 < dates.length := Nat.pos_of_ne_zero hlen
    refine ⟨?_, ?_, ?_, ?_, ?_, ?_⟩
    · have hs := getElem?_in_range dates 0 hpos
      have c1 : (0 : Int) ≤ 0 := le_refl _
      simp only [fetch_date_index, h, pyIndex, if_neg hlen, if_pos c1,
        Int.toNat_zero, hs]
    · have hs := getElem?_last_of_ne_nil dates hne
      have c0 : ¬ (0 : Int) ≤ -1 := by decide
      have hna : ((-1 : Int)).natAbs = 1 := rfl
      have hn : (1 : Nat) ≤ dates.length := hpos
      simp only [fetch_date_index, h, pyIndex, if_neg hlen, if_neg c0, hna,
        if_pos hn, hs]
    · intro i h0 hi
      have hs := getElem?_in_range dates i.toNat hi
      simp only [fetch_date_index, h, pyIndex, if_neg hlen, if_pos h0, hs]
    · intro i hneg hle
      have h0 : ¬ (0 : Int) ≤ i := by omega
      have hlt : dates.length - i.natAbs < dates.length := by
        have hpa : 0 < i.natAbs := by omega
        omega
      have hs := getElem?_in_range dates (dates.length - i.natAbs) hlt
      simp only [fetch_date_index, h, pyIndex, if_neg hlen, if_neg h0,
        if_pos hle, hs]
    · intro i h0 hge
      have hnone : dates[i.toNat]? = none := by
        simp [List.getElem?_eq_none_iff, hge]
      simp only [fetch_date_index, h, pyIndex, if_neg hlen, if_pos h0, hnone]
    · intro i hneg hgt
      have h0 : ¬ (0 : Int) ≤ i := by omega
      have hnle : ¬ i.natAbs ≤ dates.length := by omega
      simp only [fetch_date_index, h, pyIndex, if_neg hlen, if_neg h0,
        if_neg hnle]

theorem C5_fetch_date_index_witness :
    list_available_dates envA "bookwyrm" "federation" = .ok ["20250101", "20250202"] ∧
    fetch_date_index envA "bookwyrm" "federation" 0 = .ok "20250101" ∧
    fetch_date_index envA "bookwyrm" "federation" (-1) = .ok "20250202" ∧
    fetch_date_index envA "bookwyrm" "federation" 5 =
      .error (.valueError ("Invalid index: " ++ toString (5 : Int))) := by
  have h := C5_fetch_date_index envA "bookwyrm" "federation" ["20250101", "20250202"]
    (by decide)
  have hne : (["20250101", "20250202"] : List String) ≠ [] := by decide
  refine ⟨by decide, ?_, ?_, ?_⟩
  · simpa using (h.2 hne).1
  · simpa using (h.2 hne).2.1
  · simpa using (h.2 hne).2.2.2.2.1 5 (by decide) (by decide)

/-! ## Claim C10 -/

/-- C10: the metadata table has one row per streamed record and its
columns are the record fields renamed to their final slash-separated
component; a field name with no separator is left unchanged, and the
concrete field of the claim is exposed as `UserCount`. -/
theorem C10_metadata (env : Env) (software graph_type date : String)
    (records : List (List (String × Int)))
    (hv : check_input software graph_type = .ok ())
    (hd : date ≠ "latest")
    (hr : env.instanceRecords
        (software ++ "/" ++ graph_type ++ "/" ++ date ++ "/instances.csv") = some records) :
    get_graph_metadata env software graph_type date =
      .ok { columns := (fieldNames records).map lastComponent, rows := records } ∧
    lastComponent "bookwyrm/federation/20250203/instances.csv/UserCount" = "UserCount" ∧
    (∀ s : String, '/' ∉ s.data → lastComponent s = s) := by
  refine ⟨?_, by decide, lastComponent_no_slash⟩
  simp [get_graph_metadata, hv, hd, hr]

theorem C10_metadata_witness :
    check_input "bookwyrm" "federation" = .ok () ∧
    ("20250203" : String) ≠ "latest" ∧
    get_graph_metadata envM "bookwyrm" "federation" "20250203" =
      .ok { columns := ["UserCount", "Source"],
            rows := [[("bookwyrm/federation/20250203/instances.csv/UserCount", 42),
                      ("bookwyrm/federation/20250203/instances.csv/Source", 7)]] } := by
  have h := C10_metadata envM "bookwyrm" "federation" "20250203"
    [[("bookwyrm/federation/20250203/instances.csv/UserCount", 42),
      ("bookwyrm/federation/20250203/instances.csv/Source", 7)]]
    (by decide) (by decide) (by decide)
  refine ⟨by decide, by decide, ?_⟩
  rw [h.1]
  decide

/-! ## Claim C1 -/

/-- C1 counterexample: with `index = 0` (a non-None integer) and a
non-None date, `get_graph` does not raise the mutually-exclusive
selector error; it returns a graph built from the supplied date, because
the guard tests the arguments by truthiness and `0` is falsy. -/
theorem C1_counterexample :
    get_graph envA "bookwyrm" "federation" (some 0) (some "20250101") false ≠
      .error (.valueError bothMsg) ∧
    get_graph envA "bookwyrm" "federation" (some 0) (some "20250101") false =
      .ok { directed := false, nodes := ["A", "B", "C"],
            edges := [(("A", "B"), 5), (("B", "C"), 2)] } :=
  ⟨by decide, by decide⟩

/-- C1 amended: `get_graph` raises the mutually-exclusive-selector
error exactly when both selectors are truthy, that is when `index` is a
nonzero integer and `date` a nonempty string; with `index = 0` and a
supplied date, no error is raised and the call behaves as if only the
date had been supplied. -/
theorem C1_amended (env : Env) (software graph_type : String) (k : Int) (d : String)
    (olc : Bool) (hk : k ≠ 0) (hd : d ≠ "")
    (hv : check_input software graph_type = .ok ()) :
    get_graph env software graph_type (some k) (some d) olc =
      .error (.valueError bothMsg) ∧
    (∀ d2 : String, get_graph env software graph_type (some 0) (some d2) olc =
      get_graph env software graph_type none (some d2) olc) := by
  constructor
  · have ht : truthyInt (some k) = true := by simp [truthyInt, hk]
    have ht2 : truthyStr (some d) = true := by simp [truthyStr, hd]
    simp [get_graph, hv, ht, ht2]
  · intro d2
    simp [get_graph, hv, truthyInt, truthyStr]

theorem C1_amended_witness :
    ((1 : Int) ≠ 0 ∧ ("20250101" : String) ≠ "" ∧
      check_input "bookwyrm" "federation" = .ok ()) ∧
    get_graph envA "bookwyrm" "federation" (some 1) (some "20250101") false =
      .error (.valueError bothMsg) := by
  have h := C1_amended envA "bookwyrm" "federation" 1 "20250101" false
    (by decide) (by decide) (by decide)
  exact ⟨⟨by decide, by decide, by decide⟩, h.1⟩

/-! ## Claim C3 -/

/-- C3 counterexample: `get_graph` has no `"latest"` sentinel.  With
`date = "latest"` supplied, the literal string `latest` is used in the
virtual path instead of resolving the lexicographically-maximum
available date (here `20250202`). -/
theorem C3_counterexample :
    list_available_dates envA "bookwyrm" "federation" = .ok ["20250101", "20250202"] ∧
    fetch_latest_date envA "bookwyrm" "federation" = .ok "20250202" ∧
    get_graph envA "bookwyrm" "federation" none (some "latest") false =
      .error (.upstream "bookwyrm/federation/latest/interactions.csv") ∧
    get_graph envA "bookwyrm" "federation" none (some "latest") false ≠
      get_graph envA "bookwyrm" "federation" none (some "20250202") false :=
  ⟨by decide, by decide, by decide, by decide⟩

/-- C3 amended: the date used to build the interactions path is chosen
as follows: if `index` is truthy (a nonzero integer), it is resolved by
the index lookup; else if both `index` and `date` are `None`, the
lexicographically-maximum available date is resolved; otherwise the
supplied date value is used verbatim in the path — including the
literal string `latest`, which is not treated as a sentinel by
`get_graph`. -/
theorem C3_amended (env : Env) (software graph_type : String) (olc : Bool)
    (hv : check_input software graph_type = .ok ()) :
    (∀ k : Int, k ≠ 0 →
      get_graph env software graph_type (some k) none olc =
        (fetch_date_index env software graph_type k).bind
          (fun d => buildFromCsv env software graph_type (some d) olc)) ∧
    (get_graph env software graph_type none none olc =
      (fetch_latest_date env software graph_type).bind
        (fun d => buildFromCsv env software graph_type (some d) olc)) ∧
    (∀ d : String, get_graph env software graph_type none (some d) olc =
      buildFromCsv env software graph_type (some d) olc) := by
  refine ⟨?_, ?_, ?_⟩
  · intro k hk
    have ht : truthyInt (some k) = true := by simp [truthyInt, hk]
    cases hf : fetch_date_index env software graph_type k with
    | error e => simp [get_graph, hv, ht, truthyStr, hf, Except.bind, Except.map]
    | ok d => simp [get_graph, hv, ht, truthyStr, hf, Except.bind, Except.map]
  · cases hf : fetch_latest_date env software graph_type with
    | error e => simp [get_graph, hv, truthyInt, truthyStr, hf, Except.bind, Except.map]
    | ok d => simp [get_graph, hv, truthyInt, truthyStr, hf, Except.bind, Except.map]
  · intro d
    simp [get_graph, hv, truthyInt, truthyStr]

theorem C3_amended_witness :
    check_input "bookwyrm" "federation" = .ok () ∧
    get_graph envA "bookwyrm" "federation" (some 1) none false =
      (fetch_date_index envA "bookwyrm" "federation" 1).bind
        (fun d => buildFromCsv envA "bookwyrm" "federation" (some d) false) ∧
    get_graph envA "bookwyrm" "federation" none none false =
      (fetch_latest_date envA "bookwyrm" "federation").bind
        (fun d => buildFromCsv envA "bookwyrm" "federation" (some d) false) := by
  have h := C3_amended envA "bookwyrm" "federation" false (by decide)
  exact ⟨by decide, h.1 1 (by decide), h.2.1⟩

/-! ## Claim C4 -/

/-- C4 counterexample: with `index = 0` and no date, `get_graph` does
not build the graph from the latest available date.  Because `0` is
falsy the index branch is skipped, and because `0` is not `None` the
latest-date branch is also skipped, so the path date segment becomes
the literal string `None` and the call fails upstream instead of
returning the latest graph. -/
theorem C4_counterexample :
    fetch_latest_date envA "bookwyrm" "federation" = .ok "20250202" ∧
    get_graph envA "bookwyrm" "federation" (some 0) none false =
      .error (.upstream "bookwyrm/federation/None/interactions.csv") ∧
    get_graph envA "bookwyrm" "federation" (some 0) none false ≠
      get_graph envA "bookwyrm" "federation" none none false :=
  ⟨by decide, by decide, by decide⟩

/-- C4 amended: calling `get_graph` with `index = 0` and `date = None`
resolves neither selector: the date stays `None`, the virtual path is
built with the four-character date segment `None`, and the graph (or
error) comes from streaming that path — not from the latest date and
not from the date at sorted position 0. -/
theorem C4_amended (env : Env) (software graph_type : String) (olc : Bool)
    (hv : check_input software graph_type = .ok ()) :
    get_graph env software graph_type (some 0) none olc =
      buildFromCsv env software graph_type none olc ∧
    mkCsvPath software graph_type none =
      software ++ "/" ++ graph_type ++ "/" ++ "None" ++ "/interactions.csv" := by
  constructor
  · simp [get_graph, hv, truthyInt, truthyStr]
  · rfl

theorem C4_amended_witness :
    check_input "bookwyrm" "federation" = .ok () ∧
    get_graph envA "bookwyrm" "federation" (some 0) none false =
      buildFromCsv envA "bookwyrm" "federation" none false ∧
    buildFromCsv envA "bookwyrm" "federation" none false =
      .error (.upstream "bookwyrm/federation/None/interactions.csv") := by
  have h := C4_amended envA "bookwyrm" "federation" false (by decide)
  exact ⟨by decide, h.1, by decide⟩

/-! ## Claim C7 -/

theorem keyMatches_symm (dir : Bool) (a b : String × String) :
    keyMatches dir a b = keyMatches dir b a := by
  rcases a with ⟨a1, a2⟩
  rcases b with ⟨b1, b2⟩
  rw [Bool.eq_iff_iff]
  cases dir <;>
    simp only [keyMatches, Bool.not_false, Bool.not_true, Bool.true_and,
      Bool.false_and, Bool.or_false, Bool.or_eq_true, Bool.and_eq_true,
      beq_iff_eq, Prod.mk.injEq] <;>
    constructor
  · rintro (⟨rfl, rfl⟩ | ⟨rfl, rfl⟩) <;> simp
  · rintro (⟨rfl, rfl⟩ | ⟨rfl, rfl⟩) <;> simp
  · rintro ⟨rfl, rfl⟩
    exact ⟨rfl, rfl⟩
  · rintro ⟨rfl, rfl⟩
    exact ⟨rfl, rfl⟩

theorem keyMatches_trans {dir : Bool} {a b c : String × String}
    (h1 : keyMatches dir a b = true) (h2 : keyMatches dir b c = true) :
    keyMatches dir a c = true := by
  rcases a with ⟨a1, a2⟩
  rcases b with ⟨b1, b2⟩
  rcases c with ⟨c1, c2⟩
  cases dir <;>
    simp only [keyMatches, Bool.not_false, Bool.not_true, Bool.true_and,
      Bool.false_and, Bool.or_false, Bool.or_eq_true, Bool.and_eq_true,
      beq_iff_eq, Prod.ext_iff] at * <;>
    rcases h1 with ⟨h1a, h1b⟩ | h1 <;> first
      | (rcases h2 with ⟨h2a, h2b⟩ | h2 <;> simp_all)
      | simp_all

theorem bool_not_true_eq_false {b : Bool} (h : ¬ b = true) : b = false := by
  cases b
  · rfl
  · exact absurd rfl h

theorem find?_map_upd_matches (dir : Bool) (key qk : String × String) (w : Int)
    (l : List ((String × String) × Int))
    (hq : keyMatches dir key qk = true)
    (ha : l.any (fun e => keyMatches dir e.1 key) = true) :
    ((l.map (fun e => if keyMatches dir e.1 key then (e.1, w) else e)).find?
        (fun e => keyMatches dir e.1 qk)).map Prod.snd = some w := by
  induction l with
  | nil => simp at ha
  | cons e es ih =>
    rw [List.map_cons]
    by_cases he : keyMatches dir e.1 key = true
    · have hq2 : keyMatches dir e.1 qk = true := keyMatches_trans he hq
      rw [if_pos he,
        @List.find?_cons_of_pos _ (fun e => keyMatches dir e.1 qk) (e.1, w) _ hq2]
      rfl
    · have hq2 : keyMatches dir e.1 qk = false := by
        apply bool_not_true_eq_false
        intro hcon
        have hqk : keyMatches dir qk key = true := by rw [keyMatches_symm]; exact hq
        exact he (keyMatches_trans hcon hqk)
      have ha2 : es.any (fun e => keyMatches dir e.1 key) = true := by
        simpa [List.any_cons, he] using ha
      rw [if_neg he,
        @List.find?_cons_of_neg _ (fun e => keyMatches dir e.1 qk) e _ (by simp [hq2])]
      exact ih ha2

theorem find?_map_upd_not_matches (dir : Bool) (key qk : String × String) (w : Int)
    (l : List ((String × String) × Int))
    (hq : keyMatches dir key qk = false) :
    ((l.map (fun e => if keyMatches dir e.1 key then (e.1, w) else e)).find?
        (fun e => keyMatches dir e.1 qk)).map Prod.snd =
      (l.find? (fun e => keyMatches dir e.1 qk)).map Prod.snd := by
  induction l with
  | nil => rfl
  | cons e es ih =>
    rw [List.map_cons]
    by_cases he : keyMatches dir e.1 key = true
    · have hq2 : keyMatches dir e.1 qk = false := by
        apply bool_not_true_eq_false
        intro hcon
        have he2 : keyMatches dir key e.1 = true := by rw [keyMatches_symm]; exact he
        rw [keyMatches_trans he2 hcon] at hq
        exact Bool.noConfusion hq
      rw [if_pos he,
        @List.find?_cons_of_neg _ (fun e => keyMatches dir e.1 qk) (e.1, w) _
          (by simp [hq2]),
        @List.find?_cons_of_neg _ (fun e => keyMatches dir e.1 qk) e _ (by simp [hq2])]
      exact ih
    · rw [if_neg he]
      cases hpq : keyMatches dir e.1 qk with
      | true =>
        rw [@List.find?_cons_of_pos _ (fun e => keyMatches dir e.1 qk) e _ hpq,
          @List.find?_cons_of_pos _ (fun e => keyMatches dir e.1 qk) e _ hpq]
      | false =>
        rw [@List.find?_cons_of_neg _ (fun e => keyMatches dir e.1 qk) e _ (by simp [hpq]),
          @List.find?_cons_of_neg _ (fun e => keyMatches dir e.1 qk) e _ (by simp [hpq])]
        exact ih

theorem find?_append_match (dir : Bool) (key qk : String × String) (w : Int)
    (l : List ((String × String) × Int))
    (hq : keyMatches dir key qk = true)
    (ha : l.any (fun e => keyMatches dir e.1 key) = false) :
    ((l ++ [(key, w)]).find? (fun e => keyMatches dir e.1 qk)).map Prod.snd = some w := by
  induction l with
  | nil =>
    rw [List.nil_append,
      @List.find?_cons_of_pos _ (fun e => keyMatches dir e.1 qk) (key, w) _ hq]
    rfl
  | cons e es ih =>
    have he : keyMatches dir e.1 key = false := by
      cases hc : keyMatches dir e.1 key
      · rfl
      · rw [List.any_cons, hc] at ha
        simp at ha
    have ha2 : es.any (fun e => keyMatches dir e.1 key) = false := by
      rw [List.any_cons, he] at ha
      simpa using ha
    have hq2 : keyMatches dir e.1 qk = false := by
      apply bool_not_true_eq_false
      intro hcon
      have hqk : keyMatches dir qk key = true := by rw [keyMatches_symm]; exact hq
      rw [keyMatches_trans hcon hqk] at he
      exact Bool.noConfusion he
    rw [List.cons_append,
      @List.find?_cons_of_neg _ (fun e => keyMatches dir e.1 qk) e _ (by simp [hq2])]
    exact ih ha2

theorem find?_append_no_match (dir : Bool) (key qk : String × String) (w : Int)
    (l : List ((String × String) × Int))
    (hq : keyMatches dir key qk = false) :
    ((l ++ [(key, w)]).find? (fun e => keyMatches dir e.1 qk)).map Prod.snd =
      (l.find? (fun e => keyMatches dir e.1 qk)).map Prod.snd := by
  induction l with
  | nil =>
    rw [List.nil_append,
      @List.find?_cons_of_neg _ (fun e => keyMatches dir e.1 qk) (key, w) _
        (by simp [hq])]
  | cons e es ih =>
    rw [List.cons_append]
    cases hpq : keyMatches dir e.1 qk with
    | true =>
      rw [@List.find?_cons_of_pos _ (fun e => keyMatches dir e.1 qk) e _ hpq,
        @List.find?_cons_of_pos _ (fun e => keyMatches dir e.1 qk) e _ hpq]
    | false =>
      rw [@List.find?_cons_of_neg _ (fun e => keyMatches dir e.1 qk) e _ (by simp [hpq]),
        @List.find?_cons_of_neg _ (fun e => keyMatches dir e.1 qk) e _ (by simp [hpq])]
      exact ih

theorem any_map_fst (l : List ((String × String) × Int))
    (p : (String × String) → Bool) :
    (l.map Prod.fst).any p = l.any (fun e => p e.1) := by
  induction l with
  | nil => rfl
  | cons e es ih => simp [List.any_cons, ih]

theorem weightOf_addEdge (g : Graph) (s t u v : String) (w : Int) :
    (g.addEdge s t w).weightOf u v =
      if keyMatches g.directed (s, t) (u, v) = true then some w
      else g.weightOf u v := by
  unfold Graph.addEdge Graph.weightOf
  simp only []
  by_cases hq : keyMatches g.directed (s, t) (u, v) = true
  · rw [if_pos hq]
    by_cases ha : g.edges.any (fun e => keyMatches g.directed e.1 (s, t)) = true
    · rw [if_pos ha]
      exact find?_map_upd_matches _ _ _ _ _ hq ha
    · rw [if_neg ha]
      exact find?_append_match _ _ _ _ _ hq (bool_not_true_eq_false ha)
  · rw [if_neg hq]
    have hqf : keyMatches g.directed (s, t) (u, v) = false := bool_not_true_eq_false hq
    by_cases ha : g.edges.any (fun e => keyMatches g.directed e.1 (s, t)) = true
    · rw [if_pos ha]
      exact find?_map_upd_not_matches _ _ _ _ _ hqf
    · rw [if_neg ha]
      exact find?_append_no_match _ _ _ _ _ hqf

theorem buildGraph_weightOf (dir : Bool) (records : List InteractionRecord)
    (u v : String) :
    (buildGraph dir records).weightOf u v =
      ((records.filter (fun r => keyMatches dir (r.source, r.target) (u, v))).getLast?).map
        (fun r => r.weight) := by
  induction records using List.reverseRecOn with
  | nil => rfl
  | append_singleton rs r ih =>
    have hfold : buildGraph dir (rs ++ [r]) =
        (buildGraph dir rs).addEdge r.source r.target r.weight := by
      simp [buildGraph, List.foldl_append]
    rw [hfold, weightOf_addEdge, buildGraph_directed dir rs, List.filter_append]
    by_cases hm : keyMatches dir (r.source, r.target) (u, v) = true
    · rw [if_pos hm]
      have hf : List.filter (fun r => keyMatches dir (r.source, r.target) (u, v)) [r] =
          [r] := by simp [List.filter, hm]
      rw [hf, List.getLast?_concat]
      rfl
    · rw [if_neg hm, ih]
      have hf : List.filter (fun r => keyMatches dir (r.source, r.target) (u, v)) [r] =
          [] := by simp [List.filter, bool_not_true_eq_false hm]
      rw [hf, List.append_nil]

theorem addEdge_keys (g : Graph) (u v : String) (w : Int) :
    (g.addEdge u v w).edges.map Prod.fst =
      (if (g.edges.map Prod.fst).any (fun k => keyMatches g.directed k (u, v)) then
        g.edges.map Prod.fst
       else g.edges.map Prod.fst ++ [(u, v)]) := by
  unfold Graph.addEdge
  simp only []
  have hany : (g.edges.map Prod.fst).any (fun k => keyMatches g.directed k (u, v)) =
      g.edges.any (fun e => keyMatches g.directed e.1 (u, v)) :=
    any_map_fst g.edges (fun k => keyMatches g.directed k (u, v))
  rw [hany]
  by_cases ha : g.edges.any (fun e => keyMatches g.directed e.1 (u, v)) = true
  · rw [if_pos ha, if_pos ha, List.map_map]
    congr 1
    funext e
    by_cases he : keyMatches g.directed e.1 (u, v) = true <;>
      simp [Function.comp, he]
  · rw [if_neg ha, if_neg ha, List.map_append]
    rfl

theorem buildGraph_keys (dir : Bool) (records : List InteractionRecord) :
    (buildGraph dir records).edges.map Prod.fst = distinctKeysPy dir records := by
  suffices h : ∀ g : Graph, g.directed = dir →
      ((records.foldl (fun g r => g.addEdge r.source r.target r.weight) g).edges.map
          Prod.fst =
        records.foldl
          (fun ks r =>
            if ks.any (fun k => keyMatches dir k (r.source, r.target)) then ks
            else ks ++ [(r.source, r.target)])
          (g.edges.map Prod.fst)) by
    exact h { directed := dir, nodes := [], edges := [] } rfl
  induction records with
  | nil => intro g hg; rfl
  | cons r rs ih =>
    intro g hg
    simp only [List.foldl_cons]
    rw [ih (g.addEdge r.source r.target r.weight) (by rw [addEdge_directed]; exact hg)]
    rw [addEdge_keys, hg]

/-- C7: graph construction keeps exactly one edge per distinct endpoint
pair (identified per the container: ordered for a directed graph,
unordered for an undirected one), the weight of that edge being the
weight of the last record seen for the pair; the concrete record list
`[(A,B,1), (B,C,2), (A,B,5)]` yields exactly 3 nodes and 2 edges with
edge (A,B) carrying weight 5. -/
theorem C7_last_write_wins :
    (∀ (dir : Bool) (records : List InteractionRecord) (u v : String),
      (buildGraph dir records).weightOf u v =
        ((records.filter (fun r => keyMatches dir (r.source, r.target) (u, v))).getLast?).map
          (fun r => r.weight)) ∧
    (∀ (dir : Bool) (records : List InteractionRecord),
      (buildGraph dir records).edges.map Prod.fst = distinctKeysPy dir records ∧
      (buildGraph dir records).edges.length = (distinctKeysPy dir records).length) ∧
    get_graph envA "bookwyrm" "federation" none (some "20250101") false =
      .ok { directed := false, nodes := ["A", "B", "C"],
            edges := [(("A", "B"), 5), (("B", "C"), 2)] } ∧
    (buildGraph false [⟨"A", "B", 1⟩, ⟨"B", "C", 2⟩, ⟨"A", "B", 5⟩]).nodes.length = 3 ∧
    (buildGraph false [⟨"A", "B", 1⟩, ⟨"B", "C", 2⟩, ⟨"A", "B", 5⟩]).edges.length = 2 ∧
    (buildGraph false [⟨"A", "B", 1⟩, ⟨"B", "C", 2⟩, ⟨"A", "B", 5⟩]).weightOf "A" "B" =
      some 5 := by
  refine ⟨buildGraph_weightOf, ?_, by decide, by decide, by decide, by decide⟩
  intro dir records
  have h := buildGraph_keys dir records
  refine ⟨h, ?_⟩
  rw [← h, List.length_map]

/-! ## Claim C6 -/

theorem startsWithPat_iff (p : List Char) : ∀ l : List Char,
    (startsWithPat l p = true ↔ ∃ t, l = p ++ t) := by
  induction p with
  | nil =>
    intro l
    simp [startsWithPat]
  | cons b bs ih =>
    intro l
    cases l with
    | nil => simp [startsWithPat]
    | cons a l2 =>
      simp only [startsWithPat, Bool.and_eq_true, beq_iff_eq, ih l2,
        List.cons_append, List.cons.injEq]
      constructor
      · rintro ⟨rfl, t, rfl⟩
        exact ⟨t, rfl, rfl⟩
      · rintro ⟨t, rfl, rfl⟩
        exact ⟨rfl, t, rfl⟩

theorem containsPat_iff (p : List Char) : ∀ l : List Char,
    (containsPat l p = true ↔ ∃ s t, l = s ++ p ++ t) := by
  intro l
  induction l with
  | nil =>
    simp only [containsPat, List.isEmpty_iff]
    constructor
    · rintro rfl
      exact ⟨[], [], rfl⟩
    · rintro ⟨s, t, h⟩
      rcases List.append_eq_nil.mp h.symm with ⟨h1, h2⟩
      exact (List.append_eq_nil.mp h1).2
  | cons x rest ih =>
    simp only [containsPat, Bool.or_eq_true, startsWithPat_iff, ih]
    constructor
    · rintro (⟨t, ht⟩ | ⟨s, t, ht⟩)
      · exact ⟨[], t, by simpa using ht⟩
      · exact ⟨x :: s, t, by simp [ht]⟩
    · rintro ⟨s, t, ht⟩
      cases s with
      | nil => exact Or.inl ⟨t, by simpa using ht⟩
      | cons y s2 =>
        rw [List.cons_append, List.cons_append] at ht
        injection ht with h1 h2
        exact Or.inr ⟨s2, t, h2⟩

theorem pat_head_of_append_sep (sep : Char) :
    ∀ (p a t r : List Char), sep ∉ p → a ++ sep :: r = p ++ t →
      ∃ t2, a = p ++ t2 := by
  intro p
  induction p with
  | nil => intro a t r _ _; exact ⟨a, rfl⟩
  | cons c p2 ih =>
    intro a t r hsep heq
    cases a with
    | nil =>
      rw [List.nil_append, List.cons_append] at heq
      injection heq with h1 h2
      exact absurd (h1 ▸ List.mem_cons_self c p2) hsep
    | cons x a2 =>
      rw [List.cons_append, List.cons_append] at heq
      injection heq with h1 h2
      have hsep2 : sep ∉ p2 := fun hm => hsep (List.mem_cons_of_mem c hm)
      obtain ⟨t2, ht2⟩ := ih a2 t r hsep2 h2
      exact ⟨t2, by rw [ht2, h1, List.cons_append]⟩

theorem pat_across_sep (sep : Char) :
    ∀ (s p t a r : List Char), sep ∉ p → s ++ p ++ t = a ++ sep :: r →
      (∃ s2 t2, a = s2 ++ p ++ t2) ∨ (∃ s2 t2, r = s2 ++ p ++ t2) := by
  intro s
  induction s with
  | nil =>
    intro p t a r hsep heq
    rw [List.nil_append] at heq
    obtain ⟨t2, ht2⟩ := pat_head_of_append_sep sep p a t r hsep heq.symm
    exact Or.inl ⟨[], t2, by simpa using ht2⟩
  | cons x s2 ih =>
    intro p t a r hsep heq
    simp only [List.cons_append, List.append_assoc] at heq
    cases a with
    | nil =>
      rw [List.nil_append] at heq
      injection heq with h1 h2
      refine Or.inr ⟨s2, t, ?_⟩
      rw [← h2, List.append_assoc]
    | cons y a2 =>
      rw [List.cons_append] at heq
      injection heq with h1 h2
      have h2b : s2 ++ p ++ t = a2 ++ sep :: r := by
        rw [List.append_assoc]
        exact h2
      rcases ih p t a2 r hsep h2b with ⟨s2b, t2, hb⟩ | hr
      · refine Or.inl ⟨x :: s2b, t2, ?_⟩
        subst h1
        simp [hb, List.cons_append, List.append_assoc]
      · exact Or.inr hr

theorem splitCh_ne_nil (sep : Char) (l : List Char) : splitCh sep l ≠ [] := by
  cases l with
  | nil => simp [splitCh]
  | cons c rest =>
    cases hsp : splitCh sep rest with
    | nil => simp [splitCh, hsp]
    | cons h0 t0 =>
      by_cases hc : c = sep <;> simp [splitCh, hsp, hc]

theorem splitCh_append_sep (sep : Char) :
    ∀ (a rest : List Char), sep ∉ a →
      splitCh sep (a ++ sep :: rest) = a :: splitCh sep rest := by
  intro a
  induction a with
  | nil =>
    intro rest _
    rw [List.nil_append]
    cases hsp : splitCh sep rest with
    | nil => exact absurd hsp (splitCh_ne_nil sep rest)
    | cons h0 t0 => simp [splitCh, hsp]
  | cons c a2 ih =>
    intro rest hsep
    have hc : ¬ c = sep := fun he => hsep (he ▸ List.mem_cons_self c a2)
    have hsep2 : sep ∉ a2 := fun hm => hsep (List.mem_cons_of_mem c hm)
    rw [List.cons_append]
    simp [splitCh, ih rest hsep2, hc]

theorem assocLookup_some_mem (l : List (String × List String)) (s : String)
    (ts : List String) (h : assocLookup l s = some ts) : (s, ts) ∈ l := by
  induction l with
  | nil => exact Option.noConfusion h
  | cons p rest ih =>
    obtain ⟨k, v⟩ := p
    by_cases hs : s = k
    · subst hs
      simp [assocLookup] at h
      subst h
      exact List.mem_cons_self _ _
    · simp only [assocLookup, if_neg hs] at h
      exact List.mem_cons_of_mem _ (ih h)

theorem check_input_ok_parts (software graph_type : String)
    (h : check_input software graph_type = .ok ()) :
    ∃ ts, lookupTypes software = some ts ∧ graph_type ∈ ts := by
  unfold check_input at h
  split at h
  · exact Except.noConfusion h
  · rename_i ts hl
    split at h
    · rename_i hg
      exact ⟨ts, hl, hg⟩
    · exact Except.noConfusion h

theorem catalog_software_short :
    ∀ p ∈ VALID_GRAPH_TYPES, (Prod.fst p).data.length ≤ 9 := by decide

theorem catalog_types_short :
    ∀ p ∈ VALID_GRAPH_TYPES, ∀ x ∈ Prod.snd p, x.data.length ≤ 14 := by decide

theorem not_contains_of_instances (software graph_type : String) (ts : List String)
    (hl : lookupTypes software = some ts) (hg : graph_type ∈ ts)
    (s3 : List Char) (hdig : ∀ c ∈ s3, c.isDigit = true) (u : String)
    (hdata : u.data = software.data ++ '/' ::
      (graph_type.data ++ '/' :: (s3 ++ '/' :: "instances.csv".data))) :
    strContains u "interactions.csv" = false := by
  have hm := assocLookup_some_mem VALID_GRAPH_TYPES software ts hl
  have hplen : ("interactions.csv".data).length = 16 := by decide
  have hsl : '/' ∉ "interactions.csv".data := by decide
  apply bool_not_true_eq_false
  intro hcon
  rw [strContains, containsPat_iff] at hcon
  obtain ⟨s, t, hst⟩ := hcon
  rw [hdata] at hst
  rcases pat_across_sep '/' s _ t _ _ hsl hst.symm with ⟨s2, t2, hb⟩ | ⟨s2, t2, hr⟩
  · have hsw : software.data.length ≤ 9 := catalog_software_short _ hm
    have hlb : software.data.length = s2.length + (16 + t2.length) := by
      rw [hb]
      simp [List.length_append, hplen]
      omega
    omega
  · rcases pat_across_sep '/' s2 _ t2 _ _ hsl hr.symm with ⟨s3b, t3, hb⟩ | ⟨s3b, t3, hr2⟩
    · have hgt : graph_type.data.length ≤ 14 := catalog_types_short _ hm _ hg
      have hlb : graph_type.data.length = s3b.length + (16 + t3.length) := by
        rw [hb]
        simp [List.length_append, hplen]
        omega
      omega
    · rcases pat_across_sep '/' s3b _ t3 _ _ hsl hr2.symm with ⟨s4, t4, hb⟩ | ⟨s4, t4, hr3⟩
      · have hdot : ('.' : Char) ∈ s3 := by
          rw [hb]
          have : ('.' : Char) ∈ "interactions.csv".data := by decide
          simp [List.mem_append, this]
        have := hdig _ hdot
        simp at this
      · have hlb : ("instances.csv".data).length = s4.length + (16 + t4.length) := by
          rw [hr3]
          simp [List.length_append, hplen]
          omega
        have h13 : ("instances.csv".data).length = 13 := by decide
        omega

theorem contains_of_interactions (u : String) (a b c : List Char)
    (hdata : u.data = a ++ '/' :: (b ++ '/' :: (c ++ '/' :: "interactions.csv".data))) :
    strContains u "interactions.csv" = true := by
  rw [strContains, containsPat_iff]
  refine ⟨a ++ '/' :: (b ++ '/' :: (c ++ ['/'])), [], ?_⟩
  rw [hdata]
  simp [List.append_assoc, List.cons_append, List.singleton_append, List.append_nil]

theorem pySplit_wf (u : String) (a b c d : List Char)
    (hdata : u.data = a ++ '/' :: (b ++ '/' :: (c ++ '/' :: d)))
    (ha : '/' ∉ a) (hb : '/' ∉ b) (hc : '/' ∉ c) (hd : '/' ∉ d) :
    pySplit u = [String.mk a, String.mk b, String.mk c, String.mk d] := by
  unfold pySplit
  rw [hdata, splitCh_append_sep '/' a _ ha, splitCh_append_sep '/' b _ hb,
    splitCh_append_sep '/' c _ hc, splitCh_no_sep '/' d hd]
  rfl

theorem collectDates_eq (software graph_type : String) (ts : List String)
    (hl : lookupTypes software = some ts) (hg : graph_type ∈ ts) :
    ∀ rss : List String, (∀ u ∈ rss, WellFormedUuid u) →
      collectDates software graph_type rss =
        .ok (specSelectedDates rss software graph_type) := by
  intro rss
  induction rss with
  | nil => intro _; rfl
  | cons u rest ih =>
    intro hwf
    obtain ⟨a, b, c, d, hdata, ha, hb, hc, hdm, hdig⟩ := hwf u (List.mem_cons_self u rest)
    have hrest : ∀ v ∈ rest, WellFormedUuid v := fun v hv =>
      hwf v (List.mem_cons_of_mem u hv)
    have hd : '/' ∉ d := by rcases hdm with rfl | rfl <;> decide
    have hsplit := pySplit_wf u a b c d hdata ha hb hc hd
    rcases hdm with rfl | rfl
    · have hcont : strContains u "interactions.csv" = true :=
        contains_of_interactions u a b c hdata
      have hmkd : String.mk ("interactions.csv".data) = "interactions.csv" := rfl
      by_cases hcase : String.mk a = software ∧ String.mk b = graph_type
      · simp [collectDates, hcont, hsplit, specSelectedDates, List.filterMap_cons,
          hmkd, ih hrest, Except.map, hcase]
      · simp [collectDates, hcont, hsplit, specSelectedDates, List.filterMap_cons,
          hmkd, ih hrest, Except.map, hcase]
    · have hmkd : String.mk ("instances.csv".data) = "instances.csv" := rfl
      have hne : ("instances.csv" : String) ≠ "interactions.csv" := by decide
      by_cases hcase : String.mk a = software ∧ String.mk b = graph_type
      · have hcont : strContains u "interactions.csv" = false := by
          apply not_contains_of_instances software graph_type ts hl hg c hdig u
          have ha2 : a = software.data := congrArg String.data hcase.1
          have hb2 : b = graph_type.data := congrArg String.data hcase.2
          rw [hdata, ha2, hb2]
        simp [collectDates, hcont, hsplit, specSelectedDates, List.filterMap_cons,
          hmkd, ih hrest, hne]
      · cases hcont : strContains u "interactions.csv"
        · simp [collectDates, hcont, hsplit, specSelectedDates, List.filterMap_cons,
            hmkd, ih hrest, hne]
        · simp [collectDates, hcont, hsplit, specSelectedDates, List.filterMap_cons,
            hmkd, ih hrest, Except.map, hne, hcase]

theorem char_eq_of_toNat_eq {a b : Char} (h : a.toNat = b.toNat) : a = b :=
  Char.ext (UInt32.toNat.inj h)

theorem string_eq_of_data_eq {s t : String} (h : s.data = t.data) : s = t := by
  cases s
  cases t
  exact congrArg String.mk h

theorem strLeB_total : ∀ l1 l2 : List Char, strLeB l1 l2 = true ∨ strLeB l2 l1 = true := by
  intro l1
  induction l1 with
  | nil => intro l2; exact Or.inl rfl
  | cons a s ih =>
    intro l2
    cases l2 with
    | nil => exact Or.inr rfl
    | cons b t =>
      rcases Nat.lt_trichotomy a.toNat b.toNat with h | h | h
      · exact Or.inl (by simp [strLeB, h])
      · rcases ih t with h2 | h2
        · exact Or.inl (by simp [strLeB, h, h2])
        · exact Or.inr (by simp [strLeB, h.symm, h2])
      · exact Or.inr (by simp [strLeB, h])

theorem strLeB_trans : ∀ l1 l2 l3 : List Char,
    strLeB l1 l2 = true → strLeB l2 l3 = true → strLeB l1 l3 = true := by
  intro l1
  induction l1 with
  | nil => intro l2 l3 _ _; rfl
  | cons a s ih =>
    intro l2 l3 h12 h23
    cases l2 with
    | nil => exact absurd h12 (by simp [strLeB])
    | cons b t =>
      cases l3 with
      | nil => exact absurd h23 (by simp [strLeB])
      | cons c r =>
        simp only [strLeB, Bool.or_eq_true, Bool.and_eq_true,
          decide_eq_true_eq] at h12 h23 ⊢
        rcases h12 with h12 | ⟨h12e, h12r⟩ <;> rcases h23 with h23 | ⟨h23e, h23r⟩
        · exact Or.inl (by omega)
        · exact Or.inl (by omega)
        · exact Or.inl (by omega)
        · exact Or.inr ⟨by omega, ih t r h12r h23r⟩

theorem strLeB_antisymm : ∀ l1 l2 : List Char,
    strLeB l1 l2 = true → strLeB l2 l1 = true → l1 = l2 := by
  intro l1
  induction l1 with
  | nil =>
    intro l2 h12 h21
    cases l2 with
    | nil => rfl
    | cons b t => exact absurd h21 (by simp [strLeB])
  | cons a s ih =>
    intro l2 h12 h21
    cases l2 with
    | nil => exact absurd h12 (by simp [strLeB])
    | cons b t =>
      simp only [strLeB, Bool.or_eq_true, Bool.and_eq_true,
        decide_eq_true_eq] at h12 h21
      have hab : a.toNat = b.toNat := by
        rcases h12 with h | ⟨h, _⟩ <;> rcases h21 with h2 | ⟨h2, _⟩ <;> omega
      have hr12 : strLeB s t = true := by
        rcases h12 with h | ⟨_, hh⟩
        · omega
        · exact hh
      have hr21 : strLeB t s = true := by
        rcases h21 with h | ⟨_, hh⟩
        · omega
        · exact hh
      rw [char_eq_of_toNat_eq hab, ih t hr12 hr21]

theorem pyStrLe_total (a b : String) : pyStrLe a b = true ∨ pyStrLe b a = true :=
  strLeB_total a.data b.data

theorem pyStrLe_trans {a b c : String} (h1 : pyStrLe a b = true)
    (h2 : pyStrLe b c = true) : pyStrLe a c = true :=
  strLeB_trans a.data b.data c.data h1 h2

theorem pyStrLe_antisymm {a b : String} (h1 : pyStrLe a b = true)
    (h2 : pyStrLe b a = true) : a = b :=
  string_eq_of_data_eq (strLeB_antisymm a.data b.data h1 h2)

/-- C6: for every valid pair and well-formed record-set descriptors,
`list_available_dates` returns (without error) exactly the date
segments of the descriptors whose filename segment is
`interactions.csv` and whose software and graph-type segments match,
in ascending lexicographic order; the result is invariant under any
reordering of the descriptors, and is the empty sequence (not an
error) when nothing matches. -/
theorem C6_list_available_dates (env : Env) (software graph_type : String)
    (hv : check_input software graph_type = .ok ())
    (hwf : ∀ u ∈ env.recordSets, WellFormedUuid u) :
    list_available_dates env software graph_type =
      .ok (sortStrings (specSelectedDates env.recordSets software graph_type)) ∧
    (sortStrings (specSelectedDates env.recordSets software graph_type)).Perm
      (specSelectedDates env.recordSets software graph_type) ∧
    List.Sorted (fun a b : String => pyStrLe a b = true)
      (sortStrings (specSelectedDates env.recordSets software graph_type)) ∧
    (∀ env2 : Env, env2.recordSets.Perm env.recordSets →
      list_available_dates env2 software graph_type =
        list_available_dates env software graph_type) ∧
    (specSelectedDates env.recordSets software graph_type = [] →
      list_available_dates env software graph_type = .ok []) := by
  haveI hTot : IsTotal String (fun a b : String => pyStrLe a b = true) :=
    ⟨pyStrLe_total⟩
  haveI hTrans : IsTrans String (fun a b : String => pyStrLe a b = true) :=
    ⟨fun _ _ _ => pyStrLe_trans⟩
  haveI hAnti : IsAntisymm String (fun a b : String => pyStrLe a b = true) :=
    ⟨fun _ _ => pyStrLe_antisymm⟩
  obtain ⟨ts, hl, hg⟩ := check_input_ok_parts software graph_type hv
  have hmain : ∀ env0 : Env, (∀ u ∈ env0.recordSets, WellFormedUuid u) →
      list_available_dates env0 software graph_type =
        .ok (sortStrings (specSelectedDates env0.recordSets software graph_type)) := by
    intro env0 hwf0
    simp only [list_available_dates, hv,
      collectDates_eq software graph_type ts hl hg env0.recordSets hwf0, Except.map]
  refine ⟨hmain env hwf, List.perm_insertionSort _ _, List.sorted_insertionSort _ _,
    ?_, ?_⟩
  · intro env2 hp
    have hwf2 : ∀ u ∈ env2.recordSets, WellFormedUuid u := fun u hu =>
      hwf u (hp.subset hu)
    rw [hmain env hwf, hmain env2 hwf2]
    have hperm : (specSelectedDates env2.recordSets software graph_type).Perm
        (specSelectedDates env.recordSets software graph_type) := hp.filterMap _
    have heq : sortStrings (specSelectedDates env2.recordSets software graph_type) =
        sortStrings (specSelectedDates env.recordSets software graph_type) := by
      apply List.eq_of_perm_of_sorted
        (((List.perm_insertionSort _ _).trans hperm).trans
          (List.perm_insertionSort _ _).symm)
        (List.sorted_insertionSort _ _) (List.sorted_insertionSort _ _)
    rw [heq]
  · intro hnone
    rw [hmain env hwf, hnone]
    rfl

theorem C6_list_available_dates_witness :
    check_input "bookwyrm" "federation" = .ok () ∧
    list_available_dates envB "bookwyrm" "federation" =
      .ok (sortStrings (specSelectedDates envB.recordSets "bookwyrm" "federation")) ∧
    list_available_dates envB "bookwyrm" "federation" = .ok ["20250101", "20250303"] ∧
    specSelectedDates envB.recordSets "bookwyrm" "federation" =
      ["20250303", "20250101"] := by
  have hwf : ∀ u ∈ envB.recordSets, WellFormedUuid u := by
    intro u hu
    simp only [envB, List.mem_cons, List.not_mem_nil, or_false] at hu
    rcases hu with rfl | rfl | rfl | rfl | rfl
    · exact ⟨"bookwyrm".data, "federation".data, "20250303".data,
        "interactions.csv".data, by decide, by decide, by decide, by decide,
        Or.inl rfl, by decide⟩
    · exact ⟨"bookwyrm".data, "federation".data, "20250101".data,
        "interactions.csv".data, by decide, by decide, by decide, by decide,
        Or.inl rfl, by decide⟩
    · exact ⟨"lemmy".data, "federation".data, "20250202".data,
        "interactions.csv".data, by decide, by decide, by decide, by decide,
        Or.inl rfl, by decide⟩
    · exact ⟨"bookwyrm".data, "federation".data, "20250101".data,
        "instances.csv".data, by decide, by decide, by decide, by decide,
        Or.inr rfl, by decide⟩
    · exact ⟨"bookwyrm".data, "active_user".data, "20250104".data,
        "interactions.csv".data, by decide, by decide, by decide, by decide,
        Or.inl rfl, by decide⟩
  have h := C6_list_available_dates envB "bookwyrm" "federation" (by decide) hwf
  refine ⟨by decide, h.1, ?_, by decide⟩
  rw [h.1]
  decide

/-! ## Claim C2 -/

theorem any_ext {α : Type} (l : List α) (p q : α → Bool) (h : ∀ x, p x = q x) :
    l.any p = l.any q := by
  induction l with
  | nil => rfl
  | cons a t ih => simp [List.any_cons, h a, ih]

theorem adjB_symm (g : Graph) (u v : String) : adjB g u v = adjB g v u := by
  unfold adjB
  apply any_ext
  intro e
  rw [Bool.or_comm]

theorem UReach.mem_left {g : Graph} {u v : String} (h : UReach g u v) :
    u ∈ g.nodes := by
  induction h with
  | refl hv => exact hv
  | step h1 h2 h3 ih => exact ih

theorem UReach.mem_right {g : Graph} {u v : String} (h : UReach g u v) :
    v ∈ g.nodes := by
  induction h with
  | refl hv => exact hv
  | step h1 h2 h3 ih => exact h3

theorem UReach.trans {g : Graph} {u v w : String} (h1 : UReach g u v)
    (h2 : UReach g v w) : UReach g u w := by
  induction h2 with
  | refl hx => exact h1
  | step hx hadj hmem ih => exact UReach.step ih hadj hmem


theorem UReach.symm {g : Graph} {u v : String} (h : UReach g u v) :
    UReach g v u := by
  induction h with
  | refl hv => exact UReach.refl _ hv
  | @step v2 w2 h1 h2 h3 ih =>
    have hwv : UReach g w2 v2 :=
      UReach.step (UReach.refl w2 h3) (by rw [adjB_symm]; exact h2) h1.mem_right
    exact hwv.trans ih

theorem mem_expandComp {g : Graph} {s : List String} {x : String} :
    x ∈ expandComp g s ↔ x ∈ g.nodes ∧ (x ∈ s ∨ ∃ w ∈ s, adjB g w x = true) := by
  unfold expandComp
  rw [List.mem_filter]
  constructor
  · rintro ⟨hn, hp⟩
    refine ⟨hn, ?_⟩
    rcases Bool.or_eq_true_iff.mp hp with h | h
    · exact Or.inl (List.elem_iff.mp h)
    · obtain ⟨w, hw, hadj⟩ := List.any_eq_true.mp h
      exact Or.inr ⟨w, hw, hadj⟩
  · rintro ⟨hn, hor⟩
    refine ⟨hn, ?_⟩
    apply Bool.or_eq_true_iff.mpr
    rcases hor with h | ⟨w, hw, hadj⟩
    · exact Or.inl (List.elem_iff.mpr h)
    · exact Or.inr (List.any_eq_true.mpr ⟨w, hw, hadj⟩)

theorem expandComp_subset_nodes (g : Graph) (s : List String) :
    expandComp g s ⊆ g.nodes := fun _ hx => (mem_expandComp.mp hx).1

theorem subset_expandComp {g : Graph} {s : List String} (hs : s ⊆ g.nodes) :
    s ⊆ expandComp g s := fun x hx => mem_expandComp.mpr ⟨hs hx, Or.inl hx⟩

theorem expandComp_ext {g : Graph} {s t : List String}
    (h : ∀ x, x ∈ s ↔ x ∈ t) : expandComp g s = expandComp g t := by
  unfold expandComp
  apply List.filter_congr
  intro x _
  have hc : s.contains x = t.contains x := by
    rw [Bool.eq_iff_iff, List.elem_iff, List.elem_iff]
    exact h x
  have ha : (s.any fun w => adjB g w x) = (t.any fun w => adjB g w x) := by
    rw [Bool.eq_iff_iff, List.any_eq_true, List.any_eq_true]
    constructor
    · rintro ⟨w, hw, hadj⟩
      exact ⟨w, (h w).mp hw, hadj⟩
    · rintro ⟨w, hw, hadj⟩
      exact ⟨w, (h w).mpr hw, hadj⟩
  rw [hc, ha]

theorem iter_subset_nodes {g : Graph} {v : String} (hv : v ∈ g.nodes) :
    ∀ n, (expandComp g)^[n] [v] ⊆ g.nodes := by
  intro n
  cases n with
  | zero =>
    intro x hx
    simp only [Function.iterate_zero_apply, List.mem_singleton] at hx
    exact hx ▸ hv
  | succ m =>
    rw [Function.iterate_succ_apply']
    exact expandComp_subset_nodes g _

theorem iter_mono_succ {g : Graph} {v : String} (hv : v ∈ g.nodes) (n : Nat) :
    (expandComp g)^[n] [v] ⊆ (expandComp g)^[n + 1] [v] := by
  rw [Function.iterate_succ_apply']
  exact subset_expandComp (iter_subset_nodes hv n)

theorem iter_mono {g : Graph} {v : String} (hv : v ∈ g.nodes) :
    ∀ m n : Nat, m ≤ n → (expandComp g)^[m] [v] ⊆ (expandComp g)^[n] [v] := by
  intro m n
  induction n with
  | zero =>
    intro hm
    have hm0 : m = 0 := by omega
    subst hm0
    exact fun x hx => hx
  | succ k ih =>
    intro hm
    by_cases hmk : m ≤ k
    · exact fun x hx => iter_mono_succ hv k (ih hmk hx)
    · have hmk2 : m = k + 1 := by omega
      subst hmk2
      exact fun x hx => hx

theorem iter_nodup {g : Graph} {v : String} (hg : g.nodes.Nodup) (n : Nat) :
    ((expandComp g)^[n] [v]).Nodup := by
  cases n with
  | zero => simp
  | succ m =>
    rw [Function.iterate_succ_apply']
    exact hg.filter _

theorem iter_sound {g : Graph} {v : String} (hv : v ∈ g.nodes) :
    ∀ n x, x ∈ (expandComp g)^[n] [v] → UReach g v x := by
  intro n
  induction n with
  | zero =>
    intro x hx
    simp only [Function.iterate_zero_apply, List.mem_singleton] at hx
    exact hx ▸ UReach.refl v hv
  | succ m ih =>
    intro x hx
    rw [Function.iterate_succ_apply'] at hx
    obtain ⟨hn, hor⟩ := mem_expandComp.mp hx
    rcases hor with h | ⟨w, hw, hadj⟩
    · exact ih x h
    · exact UReach.step (ih w hw) hadj hn

theorem iter_stable {g : Graph} {v : String} {n : Nat}
    (heq : ∀ x, x ∈ (expandComp g)^[n + 1] [v] ↔ x ∈ (expandComp g)^[n] [v]) :
    ∀ k, (expandComp g)^[n + 1 + k] [v] = (expandComp g)^[n + 1] [v] := by
  intro k
  induction k with
  | zero => rfl
  | succ j ih =>
    have hstep : (expandComp g)^[n + 1 + (j + 1)] [v] =
        expandComp g ((expandComp g)^[n + 1 + j] [v]) := by
      rw [show n + 1 + (j + 1) = (n + 1 + j) + 1 by omega, Function.iterate_succ_apply']
    rw [hstep, ih, expandComp_ext heq]
    exact (Function.iterate_succ_apply' _ _ _).symm

theorem exists_stable {g : Graph} {v : String} (hv : v ∈ g.nodes)
    (hg : g.nodes.Nodup) :
    ∃ n ≤ g.nodes.length, ∀ x,
      x ∈ (expandComp g)^[n + 1] [v] ↔ x ∈ (expandComp g)^[n] [v] := by
  by_contra hcon
  push_neg at hcon
  have hgrow : ∀ n, n ≤ g.nodes.length →
      n + 1 ≤ ((expandComp g)^[n] [v]).length := by
    intro n
    induction n with
    | zero => intro _; simp
    | succ m ih =>
      intro hm
      have hlb := ih (by omega)
      obtain ⟨x, hx⟩ := hcon m (by omega)
      have hsub := iter_mono_succ hv m
      have hx2 : x ∈ (expandComp g)^[m + 1] [v] ∧ x ∉ (expandComp g)^[m] [v] := by
        rcases hx with h | ⟨hna, hin⟩
        · exact h
        · exact absurd (hsub hin) hna
      have hndm : ((expandComp g)^[m] [v]).Nodup := iter_nodup hg m
      have hndm1 : ((expandComp g)^[m + 1] [v]).Nodup := iter_nodup hg (m + 1)
      have hfin : ((expandComp g)^[m] [v]).toFinset ⊂
          ((expandComp g)^[m + 1] [v]).toFinset := by
        rw [ssubset_iff_subset_ne]
        constructor
        · intro y hy
          rw [List.mem_toFinset] at hy ⊢
          exact hsub hy
        · intro heq
          have hxm : x ∈ ((expandComp g)^[m] [v]).toFinset := by
            rw [heq, List.mem_toFinset]
            exact hx2.1
          exact hx2.2 (List.mem_toFinset.mp hxm)
      have hcard := Finset.card_lt_card hfin
      rw [List.toFinset_card_of_nodup hndm, List.toFinset_card_of_nodup hndm1] at hcard
      omega
  have hle : ((expandComp g)^[g.nodes.length] [v]).length ≤ g.nodes.length := by
    have hnd := iter_nodup (v := v) hg g.nodes.length
    have hsub := iter_subset_nodes hv g.nodes.length
    have h1 : ((expandComp g)^[g.nodes.length] [v]).toFinset.card ≤
        g.nodes.toFinset.card := by
      apply Finset.card_le_card
      intro y hy
      rw [List.mem_toFinset] at hy ⊢
      exact hsub hy
    rw [List.toFinset_card_of_nodup hnd, List.toFinset_card_of_nodup hg] at h1
    exact h1
  have := hgrow g.nodes.length (le_refl _)
  omega

theorem ureach_closed {g : Graph} {T : List String}
    (hclosed : ∀ y z, y ∈ T → adjB g y z = true → z ∈ g.nodes → z ∈ T) :
    ∀ a b, UReach g a b → a ∈ T → b ∈ T := by
  intro a b h
  induction h with
  | refl hw => exact fun hT => hT
  | step h1 h2 h3 ih => exact fun ha => hclosed _ _ (ih ha) h2 h3

theorem reach_iff {g : Graph} {v : String} (hv : v ∈ g.nodes) (hg : g.nodes.Nodup)
    (x : String) : x ∈ g.reach v ↔ UReach g v x := by
  unfold Graph.reach
  constructor
  · exact fun hx => iter_sound hv g.nodes.length x hx
  · intro hr
    obtain ⟨n, hn, heq⟩ := exists_stable hv hg
    have hclosed : ∀ y z, y ∈ (expandComp g)^[g.nodes.length] [v] →
        adjB g y z = true → z ∈ g.nodes →
        z ∈ (expandComp g)^[g.nodes.length] [v] := by
      intro y z hy hadj hz
      have hz1 : z ∈ (expandComp g)^[g.nodes.length + 1] [v] := by
        rw [Function.iterate_succ_apply']
        exact mem_expandComp.mpr ⟨hz, Or.inr ⟨y, hy, hadj⟩⟩
      rcases Nat.lt_or_ge n g.nodes.length with hlt | hge
      · have h1 : (expandComp g)^[g.nodes.length + 1] [v] =
            (expandComp g)^[n + 1] [v] := by
          have hs := iter_stable heq (g.nodes.length + 1 - (n + 1))
          rw [show n + 1 + (g.nodes.length + 1 - (n + 1)) = g.nodes.length + 1
            by omega] at hs
          exact hs
        have h2 : (expandComp g)^[g.nodes.length] [v] =
            (expandComp g)^[n + 1] [v] := by
          have hs := iter_stable heq (g.nodes.length - (n + 1))
          rw [show n + 1 + (g.nodes.length - (n + 1)) = g.nodes.length
            by omega] at hs
          exact hs
        rw [h1] at hz1
        rw [h2]
        exact hz1
      · have hnN : n = g.nodes.length := by omega
        subst hnN
        exact (heq z).mp hz1
    have hv0 : v ∈ (expandComp g)^[g.nodes.length] [v] :=
      iter_mono hv 0 g.nodes.length (Nat.zero_le _) (by simp)
    exact ureach_closed hclosed v x hr hv0

theorem mem_reach_self {g : Graph} {v : String} (hv : v ∈ g.nodes) :
    v ∈ g.reach v := by
  unfold Graph.reach
  exact iter_mono hv 0 g.nodes.length (Nat.zero_le _) (by simp)

theorem comps_rep (g : Graph) :
    ∀ (vs seen : List String) (C : List String), C ∈ componentsAux g vs seen →
      ∃ w, w ∈ vs ∧ C = g.reach w := by
  intro vs
  induction vs with
  | nil =>
    intro seen C hC
    simp [componentsAux] at hC
  | cons u rest ih =>
    intro seen C hC
    unfold componentsAux at hC
    by_cases hu : seen.contains u = true
    · rw [if_pos hu] at hC
      obtain ⟨w, hw, he⟩ := ih seen C hC
      exact ⟨w, List.mem_cons_of_mem u hw, he⟩
    · rw [if_neg hu] at hC
      rcases List.mem_cons.mp hC with rfl | hC2
      · exact ⟨u, List.mem_cons_self u rest, rfl⟩
      · obtain ⟨w, hw, he⟩ := ih _ C hC2
        exact ⟨w, List.mem_cons_of_mem u hw, he⟩

theorem comps_cover (g : Graph) :
    ∀ (vs seen : List String), (∀ x ∈ vs, x ∈ g.nodes) →
      ∀ x ∈ vs, x ∈ seen ∨ ∃ C ∈ componentsAux g vs seen, x ∈ C := by
  intro vs
  induction vs with
  | nil =>
    intro seen _ x hx
    simp at hx
  | cons u rest ih =>
    intro seen hvs x hx
    unfold componentsAux
    by_cases hu : seen.contains u = true
    · rw [if_pos hu]
      rcases List.mem_cons.mp hx with rfl | hx2
      · exact Or.inl (List.elem_iff.mp hu)
      · exact ih seen (fun y hy => hvs y (List.mem_cons_of_mem _ hy)) x hx2
    · rw [if_neg hu]
      rcases List.mem_cons.mp hx with rfl | hx2
      · refine Or.inr ⟨g.reach x, List.mem_cons_self _ _, ?_⟩
        exact mem_reach_self (hvs x (List.mem_cons_self x rest))
      · rcases ih (seen ++ g.reach u)
          (fun y hy => hvs y (List.mem_cons_of_mem _ hy)) x hx2 with h | ⟨C, hC, hxC⟩
        · rcases List.mem_append.mp h with h2 | h2
          · exact Or.inl h2
          · exact Or.inr ⟨g.reach u, List.mem_cons_self _ _, h2⟩
        · exact Or.inr ⟨C, List.mem_cons_of_mem _ hC, hxC⟩

theorem comps_ne_nil {g : Graph} (hne : g.nodes ≠ []) :
    g.connectedComponents ≠ [] := by
  unfold Graph.connectedComponents
  cases hn : g.nodes with
  | nil => exact absurd hn hne
  | cons u rest => simp [componentsAux]

theorem maxFold_spec :
    ∀ (l : List (List String)) (acc : List String),
      (l.foldl (fun best x => if best.length < x.length then x else best) acc) ∈
          acc :: l ∧
      acc.length ≤
        (l.foldl (fun best x => if best.length < x.length then x else best) acc).length ∧
      ∀ x ∈ l, x.length ≤
        (l.foldl (fun best x => if best.length < x.length then x else best) acc).length := by
  intro l
  induction l with
  | nil =>
    intro acc
    refine ⟨List.mem_cons_self _ _, le_refl _, ?_⟩
    intro x hx
    simp at hx
  | cons c rest ih =>
    intro acc
    simp only [List.foldl_cons]
    obtain ⟨hmem, hle, hbound⟩ := ih (if acc.length < c.length then c else acc)
    have hacc2mem : (if acc.length < c.length then c else acc) = c ∨
        (if acc.length < c.length then c else acc) = acc := by
      by_cases hc : acc.length < c.length <;> simp [hc]
    have haccle : acc.length ≤ (if acc.length < c.length then c else acc).length := by
      by_cases hc : acc.length < c.length <;> simp [hc] <;> omega
    have hcle : c.length ≤ (if acc.length < c.length then c else acc).length := by
      by_cases hc : acc.length < c.length <;> simp [hc] <;> omega
    refine ⟨?_, le_trans haccle hle, ?_⟩
    · rcases List.mem_cons.mp hmem with h | h
      · rcases hacc2mem with h2 | h2
        · rw [h, h2]
          exact List.mem_cons_of_mem _ (List.mem_cons_self _ _)
        · rw [h, h2]
          exact List.mem_cons_self _ _
      · exact List.mem_cons_of_mem _ (List.mem_cons_of_mem _ h)
    · intro x hx
      rcases List.mem_cons.mp hx with rfl | hx2
      · exact le_trans hcle hle
      · exact hbound x hx2

theorem maxByLen_spec {comps : List (List String)} {m : List String}
    (h : maxByLen comps = some m) :
    m ∈ comps ∧ ∀ C ∈ comps, C.length ≤ m.length := by
  cases comps with
  | nil => exact Option.noConfusion h
  | cons c rest =>
    unfold maxByLen at h
    injection h with h
    obtain ⟨hmem, hle, hbound⟩ := maxFold_spec rest c
    subst h
    refine ⟨hmem, ?_⟩
    intro C hC
    rcases List.mem_cons.mp hC with rfl | hC2
    · exact hle
    · exact hbound C hC2

theorem pushUnique_nodup {l : List String} (h : l.Nodup) (x : String) :
    (pushUnique l x).Nodup := by
  unfold pushUnique
  by_cases hx : x ∈ l
  · rw [if_pos hx]
    exact h
  · rw [if_neg hx]
    rw [List.nodup_append]
    refine ⟨h, List.nodup_singleton x, ?_⟩
    intro a ha hax
    simp at hax
    subst hax
    exact hx ha

theorem buildGraph_nodes_nodup (dir : Bool) (records : List InteractionRecord) :
    (buildGraph dir records).nodes.Nodup := by
  suffices h : ∀ g : Graph, g.nodes.Nodup →
      (records.foldl (fun g r => g.addEdge r.source r.target r.weight) g).nodes.Nodup by
    exact h _ List.nodup_nil
  induction records with
  | nil => exact fun g hg => hg
  | cons r rs ih =>
    intro g hg
    exact ih _ (pushUnique_nodup (pushUnique_nodup hg _) _)

/-- C2 amended: with `only_largest_component = true`, for graph types in
the undirected set the returned graph is the induced subgraph on a
connected component of maximum node count (components computed over the
node list in insertion order, each component being exactly a class of
undirected connectivity, every node covered by some component); for the
directed graph types the call instead fails with the not-implemented
error of the components enumeration, which refuses directed graphs. -/
theorem C2_largest_component (env : Env) (software graph_type dstr : String)
    (records : List InteractionRecord)
    (hv : check_input software graph_type = .ok ())
    (hrec : env.interactions (mkCsvPath software graph_type (some dstr)) =
      some records) :
    (graph_type ∉ UNDIRECTED_GRAPHS →
      get_graph env software graph_type none (some dstr) true =
        .error (.notImplemented notImplementedMsg)) ∧
    (graph_type ∈ UNDIRECTED_GRAPHS →
      (buildGraph false records).nodes ≠ [] →
      ∃ C,
        get_graph env software graph_type none (some dstr) true =
          .ok ((buildGraph false records).subgraphOn C) ∧
        C ∈ (buildGraph false records).connectedComponents ∧
        (∀ C2 ∈ (buildGraph false records).connectedComponents,
          C2.length ≤ C.length) ∧
        (∃ w ∈ (buildGraph false records).nodes,
          ∀ x, x ∈ C ↔ UReach (buildGraph false records) w x) ∧
        (∀ x ∈ (buildGraph false records).nodes,
          ∃ C2 ∈ (buildGraph false records).connectedComponents, x ∈ C2) ∧
        ((buildGraph false records).subgraphOn C).nodes =
          (buildGraph false records).nodes.filter (fun x => C.contains x) ∧
        ((buildGraph false records).subgraphOn C).edges =
          (buildGraph false records).edges.filter
            (fun e => C.contains e.1.1 && C.contains e.1.2)) := by
  constructor
  · intro hnu
    have hfl : dirFlag graph_type = true := by simp [dirFlag, hnu]
    simp [get_graph, hv, truthyInt, truthyStr, buildFromCsv, hrec, hfl,
      buildGraph_directed]
  · intro hu hne
    have hfl : dirFlag graph_type = false := by simp [dirFlag, hu]
    have hnd := buildGraph_nodes_nodup false records
    obtain ⟨m, hm⟩ : ∃ m, maxByLen (buildGraph false records).connectedComponents =
        some m := by
      cases hc : (buildGraph false records).connectedComponents with
      | nil => exact absurd hc (comps_ne_nil hne)
      | cons c rest => exact ⟨_, rfl⟩
    obtain ⟨hmmem, hmbound⟩ := maxByLen_spec hm
    obtain ⟨w, hw, hrep⟩ := comps_rep (buildGraph false records) _ [] m hmmem
    refine ⟨m, ?_, hmmem, hmbound, ⟨w, hw, ?_⟩, ?_, rfl, rfl⟩
    · simp [get_graph, hv, truthyInt, truthyStr, buildFromCsv, hrec, hfl,
        buildGraph_directed, hm]
    · intro x
      rw [hrep]
      exact reach_iff hw hnd x
    · intro x hx
      rcases comps_cover (buildGraph false records) _ [] (fun y hy => hy) x hx
        with h | h
      · simp at h
      · exact h

theorem C2_counterexample :
    get_graph envC "lemmy" "cross_instance" none (some "20250101") true =
      .error (.notImplemented notImplementedMsg) ∧
    (get_graph envC "lemmy" "cross_instance" none (some "20250101") true).isOk =
      false ∧
    check_input "lemmy" "cross_instance" = .ok () :=
  ⟨by decide, by decide, by decide⟩

theorem C2_largest_component_witness :
    (check_input "bookwyrm" "federation" = .ok () ∧
      envD.interactions (mkCsvPath "bookwyrm" "federation" (some "20250101")) =
        some recordsD ∧
      "federation" ∈ UNDIRECTED_GRAPHS ∧
      (buildGraph false recordsD).nodes ≠ []) ∧
    (∃ C,
      get_graph envD "bookwyrm" "federation" none (some "20250101") true =
        .ok ((buildGraph false recordsD).subgraphOn C) ∧
      C ∈ (buildGraph false recordsD).connectedComponents ∧
      (∀ C2 ∈ (buildGraph false recordsD).connectedComponents,
        C2.length ≤ C.length) ∧
      (∃ w ∈ (buildGraph false recordsD).nodes,
        ∀ x, x ∈ C ↔ UReach (buildGraph false recordsD) w x) ∧
      (∀ x ∈ (buildGraph false recordsD).nodes,
        ∃ C2 ∈ (buildGraph false recordsD).connectedComponents, x ∈ C2) ∧
      ((buildGraph false recordsD).subgraphOn C).nodes =
        (buildGraph false recordsD).nodes.filter (fun x => C.contains x) ∧
      ((buildGraph false recordsD).subgraphOn C).edges =
        (buildGraph false recordsD).edges.filter
          (fun e => C.contains e.1.1 && C.contains e.1.2)) ∧
    get_graph envD "bookwyrm" "federation" none (some "20250101") true =
      .ok { directed := false, nodes := ["A", "B", "C", "D", "E"],
            edges := [(("A", "B"), 1), (("B", "C"), 1), (("C", "D"), 1),
                      (("D", "E"), 1)] } ∧
    (buildGraph false recordsD).nodes.length = 8 := by
  have h := C2_largest_component envD "bookwyrm" "federation" "20250101" recordsD
    (by decide) (by decide)
  exact ⟨⟨by decide, by decide, by decide, by decide⟩,
    h.2 (by decide) (by decide), by decide, by decide⟩

end FediverseGraphs
